import Mathlib

/-!
Verification of the Sofia mission-execution core.

This file gives a shallow embedding, in Lean 4, of the control logic of the
Tello waypoint runner found in `src/beta/beta_main.py` (current runner),
`src/beta/dry_main.py` (dry-run planner) and
`src/archived/beta/beta_main.py` (the variant with the target-engagement
state machine), together with the configuration constants of
`src/beta/beta_config.py` and `src/archived/beta/beta_config.py`.

Modelling conventions:
* Python floats are modelled as rationals (`ℚ`); the embedded logic only
  compares, adds and scales them, which is exact.  The one genuinely real
  computation (`math.tan` in `_estimate_distance_m`) is modelled over `ℝ`.
* Telemetry reads, detector polls, wall-clock reads and the outcome of each
  actuator command are external inputs; they are modelled as explicit oracle
  streams (lists) consumed in program order.  An exhausted stream yields a
  distinguished `noMoreInput` result, never a fabricated value.
* `try_cmd`-wrapped actuator calls either return or raise a classified
  exception; the classification flags of an exception are modelled by the
  record `PyErr`.
-/

namespace Sofia

/-- Python's built-in `round` (round half to even) on rationals, as used by
`int(round(x))` in the source. -/
def pyRound (x : ℚ) : ℤ :=
  let f := ⌊x⌋
  let r := x - (f : ℚ)
  if r < 1/2 then f
  else if 1/2 < r then f + 1
  else if f % 2 = 0 then f else f + 1

namespace BetaConfig

/-! Constants from `src/beta/beta_config.py` (the values the mission runner
actually reads). -/

def MIN_MOVE_CM : ℕ := 20
def MAX_MOVE_CM : ℕ := 500
def FORWARD_STEP_CM : ℕ := 60
def RETRIES : ℕ := 2
def TURN_CHUNK_DEG : ℕ := 45
def MIN_TURN_DEG : ℕ := 2
def IMU_RECOVER_MAX : ℕ := 3
def RC_YAW_SPEED : ℤ := 60
def RC_YAW_DEG_PER_SEC : ℚ := 90
def LOW_BATT_RTH : ℤ := 20
def COMMAND_SUCCESS_TOL_CM : ℚ := 10
def TAKEOFF_SUCCESS_HEIGHT_CM : ℚ := 30
def DRIFT_HEADING_TOL_DEG : ℚ := 5
def DRIFT_CORRECT_MAX_DEG : ℚ := 10

end BetaConfig

namespace ArchConfig

/-! Constants from `src/archived/beta/beta_config.py` that differ from or do
not appear in the current config; the engagement state machine reads these. -/

def FORWARD_APPROACH_STEP_CM : ℕ := 60
def APPROACH_DISTANCE_TOL_CM : ℚ := 5
def APPROACH_TIMEOUT_S : ℚ := 60
def APPROACH_LOST_MS : ℚ := 3000
def FIRE_LOST_MS : ℚ := 2000

end ArchConfig

/-! ## Segment advance loop (`main` in beta_main.py, lines 601-611)

The inner advancing loop of a segment:
```
remaining = int(round(dist_cm))
while remaining >= C.MIN_MOVE_CM:
    step = min(C.FORWARD_STEP_CM, remaining, C.MAX_MOVE_CM)
    ... move_forward(step) ...
    remaining -= step
```
`forwardSubSteps` returns the sequence of `step` values issued when every
`move_forward` succeeds. -/

def forwardSubSteps (remaining : ℕ) : List ℕ :=
  if _h : BetaConfig.MIN_MOVE_CM ≤ remaining then
    let step := min BetaConfig.FORWARD_STEP_CM (min remaining BetaConfig.MAX_MOVE_CM)
    step :: forwardSubSteps (remaining - step)
  else
    []
termination_by remaining
decreasing_by
  simp only [BetaConfig.MIN_MOVE_CM, BetaConfig.FORWARD_STEP_CM,
    BetaConfig.MAX_MOVE_CM] at *
  omega

/-- `_count_forward_moves` from `src/beta/dry_main.py`: the pair
`(move_command_count, leftover_cm)` of the same loop. -/
def countForwardMoves (dist : ℕ) : ℕ × ℕ :=
  go dist 0
where
  go (remaining count : ℕ) : ℕ × ℕ :=
    if _h : BetaConfig.MIN_MOVE_CM ≤ remaining then
      let step := min BetaConfig.FORWARD_STEP_CM (min remaining BetaConfig.MAX_MOVE_CM)
      go (remaining - step) (count + 1)
    else
      (count, remaining)
  termination_by remaining
  decreasing_by
    simp only [BetaConfig.MIN_MOVE_CM, BetaConfig.FORWARD_STEP_CM,
      BetaConfig.MAX_MOVE_CM] at *
    omega

lemma forwardSubSteps_of_lt {d : ℕ} (h : d < BetaConfig.MIN_MOVE_CM) :
    forwardSubSteps d = [] := by
  rw [forwardSubSteps]
  simp [Nat.not_le.mpr h]

lemma forwardSubSteps_of_le {d : ℕ} (h : BetaConfig.MIN_MOVE_CM ≤ d) :
    forwardSubSteps d =
      min BetaConfig.FORWARD_STEP_CM (min d BetaConfig.MAX_MOVE_CM) ::
        forwardSubSteps (d - min BetaConfig.FORWARD_STEP_CM (min d BetaConfig.MAX_MOVE_CM)) := by
  rw [forwardSubSteps]
  simp [h]

/-- The sub-steps and the leftover partition the commanded distance, and the
leftover is below the minimum move quantum. -/
lemma forwardSubSteps_sum (d : ℕ) :
    (forwardSubSteps d).sum + (countForwardMoves d).2 = d ∧
      (countForwardMoves d).2 < BetaConfig.MIN_MOVE_CM ∧
      (countForwardMoves d).1 = (forwardSubSteps d).length := by
  have main : ∀ d count : ℕ,
      (forwardSubSteps d).sum + (countForwardMoves.go d count).2 = d ∧
        (countForwardMoves.go d count).2 < BetaConfig.MIN_MOVE_CM ∧
        (countForwardMoves.go d count).1 = count + (forwardSubSteps d).length := by
    intro d
    induction d using Nat.strong_induction_on with
    | _ d ih =>
      intro count
      by_cases h : BetaConfig.MIN_MOVE_CM ≤ d
      · rw [forwardSubSteps_of_le h, countForwardMoves.go]
        simp only [h, dif_pos]
        set step := min BetaConfig.FORWARD_STEP_CM (min d BetaConfig.MAX_MOVE_CM) with hstep
        have hstep_pos : 0 < step := by
          simp only [hstep, BetaConfig.MIN_MOVE_CM, BetaConfig.FORWARD_STEP_CM,
            BetaConfig.MAX_MOVE_CM] at *
          omega
        have hstep_le : step ≤ d := by
          simp only [hstep]; omega
        have hlt : d - step < d := by omega
        obtain ⟨h1, h2, h3⟩ := ih (d - step) hlt (count + 1)
        refine ⟨?_, h2, ?_⟩
        · simp only [List.sum_cons]
          omega
        · simp only [List.length_cons, h3]
          omega
      · rw [forwardSubSteps_of_lt (Nat.not_le.mp h), countForwardMoves.go]
        simp only [h, dif_neg, not_false_iff]
        exact ⟨by simp, Nat.not_le.mp h, by simp⟩
  obtain ⟨h1, h2, h3⟩ := main d 0
  exact ⟨by simpa [countForwardMoves] using h1,
    by simpa [countForwardMoves] using h2,
    by simpa [countForwardMoves] using h3⟩

/-- C1: for every non-negative distance `d`, when every forward command
succeeds the advancing loop emits sub-steps each equal to
`min(FORWARD_STEP_CM, remaining, MAX_MOVE_CM)` of the remaining distance,
stops as soon as the remaining distance drops below `MIN_MOVE_CM`, and the
sub-steps sum to `d` minus a leftover in `[0, MIN_MOVE_CM)`; in particular
distance 100 yields `[60, 40]` and distance 50 yields `[50]`. -/
theorem forward_substeps_law (d : ℕ) (hd : BetaConfig.MIN_MOVE_CM ≤ d) :
    (∀ e : ℕ, e < BetaConfig.MIN_MOVE_CM → forwardSubSteps e = []) ∧
    forwardSubSteps d =
      min BetaConfig.FORWARD_STEP_CM (min d BetaConfig.MAX_MOVE_CM) ::
        forwardSubSteps (d - min BetaConfig.FORWARD_STEP_CM (min d BetaConfig.MAX_MOVE_CM)) ∧
    (∀ e : ℕ, (forwardSubSteps e).sum + (countForwardMoves e).2 = e ∧
      (countForwardMoves e).2 < BetaConfig.MIN_MOVE_CM) ∧
    forwardSubSteps 100 = [60, 40] ∧
    forwardSubSteps 50 = [50] := by
  refine ⟨fun e he => forwardSubSteps_of_lt he,
    forwardSubSteps_of_le hd,
    fun e => ⟨(forwardSubSteps_sum e).1, (forwardSubSteps_sum e).2.1⟩, ?_, ?_⟩
  · rw [forwardSubSteps_of_le (by norm_num [BetaConfig.MIN_MOVE_CM]),
      show min BetaConfig.FORWARD_STEP_CM (min 100 BetaConfig.MAX_MOVE_CM) = 60 by
        norm_num [BetaConfig.FORWARD_STEP_CM, BetaConfig.MAX_MOVE_CM]]
    rw [show (100 : ℕ) - 60 = 40 by norm_num,
      forwardSubSteps_of_le (by norm_num [BetaConfig.MIN_MOVE_CM]),
      show min BetaConfig.FORWARD_STEP_CM (min 40 BetaConfig.MAX_MOVE_CM) = 40 by
        norm_num [BetaConfig.FORWARD_STEP_CM, BetaConfig.MAX_MOVE_CM]]
    rw [show (40 : ℕ) - 40 = 0 by norm_num,
      forwardSubSteps_of_lt (by norm_num [BetaConfig.MIN_MOVE_CM])]
  · rw [forwardSubSteps_of_le (by norm_num [BetaConfig.MIN_MOVE_CM]),
      show min BetaConfig.FORWARD_STEP_CM (min 50 BetaConfig.MAX_MOVE_CM) = 50 by
        norm_num [BetaConfig.FORWARD_STEP_CM, BetaConfig.MAX_MOVE_CM]]
    rw [show (50 : ℕ) - 50 = 0 by norm_num,
      forwardSubSteps_of_lt (by norm_num [BetaConfig.MIN_MOVE_CM])]

/-- Witness for `forward_substeps_law` at `d = 100`. -/
theorem forward_substeps_law_witness :
    BetaConfig.MIN_MOVE_CM ≤ 100 ∧ forwardSubSteps 100 = [60, 40] :=
  ⟨by norm_num [BetaConfig.MIN_MOVE_CM],
    (forward_substeps_law 100 (by norm_num [BetaConfig.MIN_MOVE_CM])).2.2.2.1⟩

/-! ## Yaw normalization (`_normalize_yaw`, beta_main.py lines 245-250)

```
while deg > 180.0:  deg -= 360.0
while deg <= -180.0: deg += 360.0
return deg
```
-/

lemma normalizeDown_measure {d : ℚ} (h : 180 < d) :
    (⌊(d - 360 - 180) / 360⌋ + 1).toNat < (⌊(d - 180) / 360⌋ + 1).toNat := by
  have h0 : (0 : ℚ) ≤ (d - 180) / 360 := by
    apply div_nonneg <;> linarith
  have h1 : (0 : ℤ) ≤ ⌊(d - 180) / 360⌋ := Int.le_floor.mpr (by exact_mod_cast h0)
  have h2 : (d - 360 - 180) / 360 = (d - 180) / 360 - 1 := by ring
  rw [h2, Int.floor_sub_one]
  omega

lemma normalizeUp_measure {d : ℚ} (h : d ≤ -180) :
    (⌊(-(d + 360) - 180) / 360⌋ + 1).toNat < (⌊(-d - 180) / 360⌋ + 1).toNat := by
  have h0 : (0 : ℚ) ≤ (-d - 180) / 360 := by
    apply div_nonneg <;> linarith
  have h1 : (0 : ℤ) ≤ ⌊(-d - 180) / 360⌋ := Int.le_floor.mpr (by exact_mod_cast h0)
  have h2 : (-(d + 360) - 180) / 360 = (-d - 180) / 360 - 1 := by ring
  rw [h2, Int.floor_sub_one]
  omega

/-- First loop of `_normalize_yaw`: subtract 360 while above 180. -/
def normalizeDown (d : ℚ) : ℚ :=
  if h : 180 < d then normalizeDown (d - 360) else d
termination_by (⌊(d - 180) / 360⌋ + 1).toNat
decreasing_by
  exact normalizeDown_measure h

/-- Second loop of `_normalize_yaw`: add 360 while at or below -180. -/
def normalizeUp (d : ℚ) : ℚ :=
  if h : d ≤ -180 then normalizeUp (d + 360) else d
termination_by (⌊(-d - 180) / 360⌋ + 1).toNat
decreasing_by
  exact normalizeUp_measure h

/-- `_normalize_yaw` from beta_main.py. -/
def normalizeYaw (d : ℚ) : ℚ := normalizeUp (normalizeDown d)

lemma normalizeDown_le (d : ℚ) : normalizeDown d ≤ 180 := by
  rw [normalizeDown]
  split
  · exact normalizeDown_le (d - 360)
  · linarith [not_lt.mp (by assumption : ¬ (180 : ℚ) < d)]
termination_by (⌊(d - 180) / 360⌋ + 1).toNat
decreasing_by
  rename_i h
  exact normalizeDown_measure h

lemma normalizeDown_gt {d : ℚ} (h : -180 < d) : -180 < normalizeDown d := by
  rw [normalizeDown]
  split
  · rename_i h180
    exact normalizeDown_gt (by linarith)
  · exact h
termination_by (⌊(d - 180) / 360⌋ + 1).toNat
decreasing_by
  rename_i h180
  exact normalizeDown_measure h180

lemma normalizeUp_gt (d : ℚ) : -180 < normalizeUp d := by
  rw [normalizeUp]
  split
  · exact normalizeUp_gt (d + 360)
  · linarith [not_le.mp (by assumption : ¬ d ≤ (-180 : ℚ))]
termination_by (⌊(-d - 180) / 360⌋ + 1).toNat
decreasing_by
  rename_i h
  exact normalizeUp_measure h

lemma normalizeUp_le {d : ℚ} (h : d ≤ 180) : normalizeUp d ≤ 180 := by
  rw [normalizeUp]
  split
  · rename_i h180
    exact normalizeUp_le (by linarith)
  · exact h
termination_by (⌊(-d - 180) / 360⌋ + 1).toNat
decreasing_by
  rename_i h180
  exact normalizeUp_measure h180

lemma normalizeDown_congr (d : ℚ) : ∃ k : ℤ, normalizeDown d = d + 360 * k := by
  rw [normalizeDown]
  split
  · obtain ⟨k, hk⟩ := normalizeDown_congr (d - 360)
    exact ⟨k - 1, by rw [hk]; push_cast; ring⟩
  · exact ⟨0, by ring⟩
termination_by (⌊(d - 180) / 360⌋ + 1).toNat
decreasing_by
  rename_i h
  exact normalizeDown_measure h

lemma normalizeUp_congr (d : ℚ) : ∃ k : ℤ, normalizeUp d = d + 360 * k := by
  rw [normalizeUp]
  split
  · obtain ⟨k, hk⟩ := normalizeUp_congr (d + 360)
    exact ⟨k + 1, by rw [hk]; push_cast; ring⟩
  · exact ⟨0, by ring⟩
termination_by (⌊(-d - 180) / 360⌋ + 1).toNat
decreasing_by
  rename_i h
  exact normalizeUp_measure h

lemma normalizeYaw_mem (d : ℚ) : -180 < normalizeYaw d ∧ normalizeYaw d ≤ 180 :=
  ⟨normalizeUp_gt _, normalizeUp_le (normalizeDown_le d)⟩

lemma normalizeYaw_congr (d : ℚ) : ∃ k : ℤ, normalizeYaw d = d + 360 * k := by
  obtain ⟨k1, h1⟩ := normalizeDown_congr d
  obtain ⟨k2, h2⟩ := normalizeUp_congr (normalizeDown d)
  exact ⟨k1 + k2, by rw [normalizeYaw, h2, h1]; push_cast; ring⟩

lemma normalizeYaw_id {d : ℚ} (h1 : -180 < d) (h2 : d ≤ 180) : normalizeYaw d = d := by
  rw [normalizeYaw, normalizeDown, dif_neg (by linarith), normalizeUp,
    dif_neg (by linarith)]

lemma normalizeYaw_idem (d : ℚ) : normalizeYaw (normalizeYaw d) = normalizeYaw d :=
  normalizeYaw_id (normalizeYaw_mem d).1 (normalizeYaw_mem d).2

/-! ## Classified command failures

`try_cmd` classifies a raised exception by string matching
(`_is_imu_error`, `_is_timeout_error`, `_needs_command_recover`); an
exception is modelled by the three resulting flags. -/

structure PyErr where
  imu : Bool
  timeout : Bool
  recover : Bool
deriving DecidableEq, Repr

/-! ## Heading drift correction (`correct_heading_if_needed`, beta_main.py
lines 267-282)

External inputs of one call: the yaw telemetry before the correction, the
outcome of the issued `rotate_signed_deg` call (which propagates its
exception, if any), and the yaw telemetry read afterwards. -/

structure CorrEnv where
  actual : Option ℚ
  rotateErr : Option PyErr
  updated : Option ℚ
deriving DecidableEq, Repr

def correctHeadingIfNeeded (expected : ℚ) (env : CorrEnv) : Except PyErr ℚ :=
  if BetaConfig.DRIFT_HEADING_TOL_DEG ≤ 0 then .ok expected
  else
    match env.actual with
    | none => .ok expected
    | some actual =>
      let diff := normalizeYaw (actual - expected)
      if |diff| < BetaConfig.DRIFT_HEADING_TOL_DEG then .ok expected
      else
        let maxC := BetaConfig.DRIFT_CORRECT_MAX_DEG
        let correction := max (-maxC) (min maxC diff)
        match env.rotateErr with
        | some e => .error e
        | none =>
          match env.updated with
          | some u => .ok (normalizeYaw u)
          | none => .ok (normalizeYaw (expected - correction))

/-- The three ways the mission loop of `main` updates `expected_yaw`:
a commanded segment turn followed by a telemetry reconcile
(beta_main.py lines 593-599), a drift correction after a forward sub-step
(line 612), and the telemetry resync after a detection policy returns
(lines 626-628). -/
inductive YawEv where
  | turn (deltaDeg : ℚ) (telemetry : Option ℚ)
  | correct (env : CorrEnv)
  | policyResync (telemetry : Option ℚ)
deriving DecidableEq, Repr

def yawStep (e : ℚ) : YawEv → ℚ
  | .turn d tel =>
    match tel with
    | some y => normalizeYaw y
    | none => normalizeYaw (e + d)
  | .correct env =>
    match correctHeadingIfNeeded e env with
    | .ok v => v
    | .error _ => e
  | .policyResync tel =>
    match tel with
    | some y => normalizeYaw y
    | none => e

lemma correctHeadingIfNeeded_mem {e : ℚ} (env : CorrEnv)
    (h1 : -180 < e) (h2 : e ≤ 180) {v : ℚ}
    (hv : correctHeadingIfNeeded e env = .ok v) : -180 < v ∧ v ≤ 180 := by
  obtain ⟨act, rot, upd⟩ := env
  unfold correctHeadingIfNeeded at hv
  split at hv
  · cases hv; exact ⟨h1, h2⟩
  · cases act with
    | none => dsimp only at hv; cases hv; exact ⟨h1, h2⟩
    | some a =>
      dsimp only at hv
      by_cases hd : |normalizeYaw (a - e)| < BetaConfig.DRIFT_HEADING_TOL_DEG
      · rw [if_pos hd] at hv; cases hv; exact ⟨h1, h2⟩
      · rw [if_neg hd] at hv
        cases rot with
        | some er => exact Except.noConfusion hv
        | none =>
          cases upd with
          | some u => dsimp only at hv; cases hv; exact normalizeYaw_mem _
          | none => dsimp only at hv; cases hv; exact normalizeYaw_mem _

lemma yawStep_mem {e : ℚ} (ev : YawEv) (h1 : -180 < e) (h2 : e ≤ 180) :
    -180 < yawStep e ev ∧ yawStep e ev ≤ 180 := by
  cases ev with
  | turn d tel =>
    cases tel with
    | some y => exact normalizeYaw_mem y
    | none => exact normalizeYaw_mem (e + d)
  | correct env =>
    simp only [yawStep]
    cases hres : correctHeadingIfNeeded e env with
    | ok v => exact correctHeadingIfNeeded_mem env h1 h2 hres
    | error err => exact ⟨h1, h2⟩
  | policyResync tel =>
    cases tel with
    | some y => exact normalizeYaw_mem y
    | none => exact ⟨h1, h2⟩

lemma yawFold_mem (e : ℚ) (evs : List YawEv) (h1 : -180 < e) (h2 : e ≤ 180) :
    -180 < evs.foldl yawStep e ∧ evs.foldl yawStep e ≤ 180 := by
  induction evs generalizing e with
  | nil => exact ⟨h1, h2⟩
  | cons ev evs ih =>
    obtain ⟨g1, g2⟩ := yawStep_mem ev h1 h2
    exact ih (yawStep e ev) g1 g2

/-- C7: `_normalize_yaw` returns a value in (-180, 180] congruent to its
input mod 360, is the identity on (-180, 180] (hence idempotent), and the
expected-yaw value maintained by the mission loop stays in (-180, 180]
after any sequence of commanded turns, drift corrections and
policy resyncs, from any normalized starting yaw. -/
theorem normalize_yaw_law (d e0 : ℚ) (evs : List YawEv)
    (h1 : -180 < e0) (h2 : e0 ≤ 180) :
    (-180 < normalizeYaw d ∧ normalizeYaw d ≤ 180) ∧
    (∃ k : ℤ, normalizeYaw d = d + 360 * k) ∧
    (-180 < d → d ≤ 180 → normalizeYaw d = d) ∧
    normalizeYaw (normalizeYaw d) = normalizeYaw d ∧
    (-180 < evs.foldl yawStep e0 ∧ evs.foldl yawStep e0 ≤ 180) :=
  ⟨normalizeYaw_mem d, normalizeYaw_congr d,
    fun ha hb => normalizeYaw_id ha hb, normalizeYaw_idem d,
    yawFold_mem e0 evs h1 h2⟩

/-- Witness for `normalize_yaw_law`: input 200, start yaw 0, one +90 turn
followed by a drift correction with no telemetry. -/
theorem normalize_yaw_law_witness :
    -180 < (0 : ℚ) ∧ (0 : ℚ) ≤ 180 ∧
      (-180 < normalizeYaw 200 ∧ normalizeYaw 200 ≤ 180) ∧
      (-180 < [YawEv.turn 90 none, YawEv.correct ⟨none, none, none⟩].foldl yawStep 0 ∧
        [YawEv.turn 90 none, YawEv.correct ⟨none, none, none⟩].foldl yawStep 0 ≤ 180) :=
  ⟨by norm_num, by norm_num,
    (normalize_yaw_law 200 0 [YawEv.turn 90 none, YawEv.correct ⟨none, none, none⟩]
      (by norm_num) (by norm_num)).1,
    (normalize_yaw_law 200 0 [YawEv.turn 90 none, YawEv.correct ⟨none, none, none⟩]
      (by norm_num) (by norm_num)).2.2.2.2⟩

/-! ## Command snapshots and state-based completion
(`_capture_command_snapshot` lines 115-121, `_command_effect_seen`
lines 123-151 of beta_main.py)

Heights read from telemetry are rationals; a failed read is `none`.
`_capture_command_snapshot` returns `none` for a non-`Tello` callee or a
label outside the four height-relevant commands, otherwise the (possibly
failed) height read wrapped in `some`. -/

def captureCommandSnapshot (isTello : Bool) (label : String) (h : Option ℚ) :
    Option (Option ℚ) :=
  if isTello &&
      (label == "takeoff" || label == "land" || label == "move_up" || label == "move_down")
  then some h
  else none

def commandEffectSeen (isTello : Bool) (label : String)
    (before : Option (Option ℚ)) (args : List ℚ) (afterH : Option ℚ) : Bool :=
  if !isTello then false
  else
    match before with
    | none => false
    | some beforeH =>
      let tol := BetaConfig.COMMAND_SUCCESS_TOL_CM
      match captureCommandSnapshot isTello label afterH with
      | none => false
      | some afterRead =>
        if label == "takeoff" then
          match afterRead with
          | none => false
          | some h => decide (BetaConfig.TAKEOFF_SUCCESS_HEIGHT_CM ≤ h)
        else if label == "land" then
          match afterRead with
          | none => false
          | some h => decide (h ≤ tol)
        else if label == "move_up" || label == "move_down" then
          match beforeH, afterRead with
          | some bh, some ah =>
            let target := args.headD 0
            let delta := ah - bh
            if label == "move_up" then decide (max 0 (target - tol) ≤ delta)
            else decide (delta ≤ -(max 0 (target - tol)))
          | _, _ => false
        else false

/-! ## `try_cmd` (beta_main.py lines 187-238)

One modelled attempt carries the external inputs consumed by one iteration
of the retry loop: the height telemetry read while capturing the
pre-attempt snapshot, the outcome of calling `fn`, the height telemetry
read by the post-failure effect check, and whether the
`ensure_command_mode` recovery probe succeeded.  The `RESPONSE_TIMEOUT`
pad applied and restored around the call mutates only the SDK timeout and
is invisible to the modelled control flow. -/

inductive AttemptEv (α : Type) where
  | ok (v : α)
  | fail (heightBefore : Option ℚ) (err : PyErr) (heightAfter : Option ℚ)
      (recoverOk : Bool)
deriving DecidableEq, Repr

/-- Result of `try_cmd` together with the number of times `fn` was invoked:
`ok` is a normal return, `masked` is the `return None` taken when a timeout
is masked by a confirmed physical effect, `raised` re-raises the last
classified error, and `noMoreInput` marks an exhausted oracle stream. -/
inductive TryRes (α : Type) where
  | ok (v : α) (calls : ℕ)
  | masked (calls : ℕ)
  | raised (e : PyErr) (calls : ℕ)
  | noMoreInput
deriving DecidableEq, Repr

def tryCmdGo (isTello : Bool) (label : String) (args : List ℚ)
    (base extra : ℕ) :
    List (AttemptEv α) → ℕ → ℕ → TryRes α
  | [], _, _ => .noMoreInput
  | .ok v :: _, attempts, _ => .ok v (attempts + 1)
  | .fail hB e hA rec :: rest, attempts, maxA =>
    let attempts1 := attempts + 1
    let snapshot := captureCommandSnapshot isTello label hB
    if e.timeout && commandEffectSeen isTello label snapshot args hA then
      .masked attempts1
    else if e.recover && (isTello && rec) && attempts1 < maxA then
      tryCmdGo isTello label args base extra rest attempts1 maxA
    else
      let maxA1 := if e.imu && (maxA == base) then maxA + extra else maxA
      if attempts1 < maxA1 then tryCmdGo isTello label args base extra rest attempts1 maxA1
      else .raised e attempts1

/-- `try_cmd fn args` with `retries` configured retries: `base_attempts =
retries + 1` and `extra` additional attempts granted once on an
IMU-not-ready failure. -/
def tryCmd (isTello : Bool) (label : String) (args : List ℚ)
    (retries extra : ℕ) (evs : List (AttemptEv α)) : TryRes α :=
  tryCmdGo isTello label args (retries + 1) extra evs 0 (retries + 1)

/-- A failure event that the loop treats generically: not IMU-classified,
not desync-classified, and not a timeout whose physical effect is
confirmed by telemetry. -/
def genericFail (isTello : Bool) (label : String) (args : List ℚ)
    (hB : Option ℚ) (e : PyErr) (hA : Option ℚ) : Prop :=
  e.imu = false ∧ e.recover = false ∧
    (e.timeout && commandEffectSeen isTello label
      (captureCommandSnapshot isTello label hB) args hA) = false

lemma tryCmdGo_skip_generic {α : Type} (isTello : Bool) (label : String)
    (args : List ℚ) (base extra : ℕ) (hB : Option ℚ) (e : PyErr)
    (hA : Option ℚ) (rec : Bool)
    (hgen : genericFail isTello label args hB e hA) :
    ∀ (n : ℕ) (rest : List (AttemptEv α)) (attempts maxA : ℕ),
      attempts + n < maxA →
      tryCmdGo isTello label args base extra
          (List.replicate n (.fail hB e hA rec) ++ rest) attempts maxA =
        tryCmdGo isTello label args base extra rest (attempts + n) maxA := by
  obtain ⟨himu, hrec, hmask⟩ := hgen
  intro n
  induction n with
  | zero => intro rest attempts maxA _; simp
  | succ n ih =>
    intro rest attempts maxA hlt
    rw [List.replicate_succ, List.cons_append, tryCmdGo]
    simp only [hmask, himu, hrec, Bool.false_and, Bool.and_false, if_neg,
      Bool.false_eq_true, not_false_iff, if_false, Bool.false_or]
    have h1 : attempts + 1 < maxA := by omega
    rw [if_pos h1, ih rest (attempts + 1) maxA (by omega)]
    congr 1
    omega

/-- C2: with a retry budget of `retries + 1` attempts, an operation failing
`k - 1` times with a generic transient error and then succeeding makes
`try_cmd` return the success value after exactly `k` invocations, for every
`1 ≤ k ≤ retries + 1`; an operation failing every time makes `try_cmd`
re-raise the last error after exactly `retries + 1` invocations. -/
theorem try_cmd_retry_budget (isTello : Bool) (label : String) (args : List ℚ)
    (retries extra k : ℕ) (v : ℕ) (hB : Option ℚ) (e : PyErr)
    (hA : Option ℚ) (rec : Bool)
    (hgen : genericFail isTello label args hB e hA)
    (hk1 : 1 ≤ k) (hk : k ≤ retries + 1) :
    tryCmd isTello label args retries extra
        (List.replicate (k - 1) (.fail hB e hA rec) ++ [.ok v]) = .ok v k ∧
    tryCmd isTello label args retries extra
        (List.replicate (retries + 1) (.fail hB e hA rec) : List (AttemptEv ℕ)) =
      .raised e (retries + 1) := by
  constructor
  · rw [tryCmd, tryCmdGo_skip_generic isTello label args (retries + 1) extra
      hB e hA rec hgen (k - 1) [.ok v] 0 (retries + 1) (by omega)]
    rw [tryCmdGo]
    congr 1
    omega
  · rw [tryCmd, List.replicate_succ' retries, tryCmdGo_skip_generic isTello
      label args (retries + 1) extra hB e hA rec hgen retries
      [.fail hB e hA rec] 0 (retries + 1) (by omega)]
    obtain ⟨himu, hrec, hmask⟩ := hgen
    rw [tryCmdGo]
    simp only [hmask, himu, hrec, Bool.false_and, Bool.and_false, if_neg,
      Bool.false_eq_true, not_false_iff, if_false, Bool.false_or]
    rw [if_neg (by omega)]
    congr 1
    omega

/-- Witness for `try_cmd_retry_budget`: `retries = 2`, success on the
second attempt after one generic failure. -/
theorem try_cmd_retry_budget_witness :
    genericFail true "move_forward" [60] none ⟨false, false, false⟩ none ∧
    tryCmd true "move_forward" [60] 2 3
        (List.replicate 1 (.fail none ⟨false, false, false⟩ none false) ++ [.ok 7]) =
      .ok 7 2 ∧
    tryCmd true "move_forward" [60] 2 3
        (List.replicate 3 (.fail none ⟨false, false, false⟩ none false) :
          List (AttemptEv ℕ)) = .raised ⟨false, false, false⟩ 3 := by
  have hgen : genericFail true "move_forward" [60] none ⟨false, false, false⟩ none := by
    refine ⟨rfl, rfl, ?_⟩
    decide
  have h := try_cmd_retry_budget true "move_forward" [60] 2 3 2 7 none
    ⟨false, false, false⟩ none false hgen (by norm_num) (by norm_num)
  exact ⟨hgen, h.1, h.2⟩

/-- C3: a first-attempt failure classified as a timeout is masked as an
immediate success (`return None`, zero further attempts) when the height
telemetry confirms the commanded effect: for `move_up(d)` a height rise of
at least `d - COMMAND_SUCCESS_TOL_CM`, for `move_down(d)` a drop of at
least `d - COMMAND_SUCCESS_TOL_CM`, for `takeoff` a height of at least
`TAKEOFF_SUCCESS_HEIGHT_CM`, and for `land` a height at most
`COMMAND_SUCCESS_TOL_CM`. -/
theorem try_cmd_timeout_masking (retries extra : ℕ)
    (d b a d2 b2 a2 a3 a4 : ℚ) (b3 : Option ℚ) (e : PyErr) (rec : Bool)
    (rest : List (AttemptEv ℕ))
    (htime : e.timeout = true)
    (hup1 : 0 ≤ a - b) (hup2 : d - BetaConfig.COMMAND_SUCCESS_TOL_CM ≤ a - b)
    (hdn1 : 0 ≤ b2 - a2) (hdn2 : d2 - BetaConfig.COMMAND_SUCCESS_TOL_CM ≤ b2 - a2)
    (hto : BetaConfig.TAKEOFF_SUCCESS_HEIGHT_CM ≤ a3)
    (hld : a4 ≤ BetaConfig.COMMAND_SUCCESS_TOL_CM) :
    tryCmd true "move_up" [d] retries extra
        (.fail (some b) e (some a) rec :: rest) = .masked 1 ∧
    tryCmd true "move_down" [d2] retries extra
        (.fail (some b2) e (some a2) rec :: rest) = .masked 1 ∧
    tryCmd true "takeoff" [] retries extra
        (.fail b3 e (some a3) rec :: rest) = .masked 1 ∧
    tryCmd true "land" [] retries extra
        (.fail b3 e (some a4) rec :: rest) = .masked 1 := by
  have hup : commandEffectSeen true "move_up"
      (captureCommandSnapshot true "move_up" (some b)) [d] (some a) = true := by
    show decide (max 0 (d - BetaConfig.COMMAND_SUCCESS_TOL_CM) ≤ a - b) = true
    rw [decide_eq_true_eq]
    exact max_le hup1 hup2
  have hdn : commandEffectSeen true "move_down"
      (captureCommandSnapshot true "move_down" (some b2)) [d2] (some a2) = true := by
    show decide (a2 - b2 ≤ -max 0 (d2 - BetaConfig.COMMAND_SUCCESS_TOL_CM)) = true
    rw [decide_eq_true_eq]
    rw [le_neg]
    exact max_le (by linarith) (by linarith)
  have hto2 : commandEffectSeen true "takeoff"
      (captureCommandSnapshot true "takeoff" b3) [] (some a3) = true := by
    show decide (BetaConfig.TAKEOFF_SUCCESS_HEIGHT_CM ≤ a3) = true
    rw [decide_eq_true_eq]
    exact hto
  have hld2 : commandEffectSeen true "land"
      (captureCommandSnapshot true "land" b3) [] (some a4) = true := by
    show decide (a4 ≤ BetaConfig.COMMAND_SUCCESS_TOL_CM) = true
    rw [decide_eq_true_eq]
    exact hld
  refine ⟨?_, ?_, ?_, ?_⟩ <;>
    simp only [tryCmd, tryCmdGo, htime, hup, hdn, hto2, hld2, Bool.true_and,
      if_pos, Nat.zero_add]

/-- Witness for `try_cmd_timeout_masking`: `move_up(50)` timing out with
height rising from 40 to 90 is masked as success after a single attempt. -/
theorem try_cmd_timeout_masking_witness :
    tryCmd true "move_up" [50] 2 3
        ((AttemptEv.fail (some 40) ⟨false, true, false⟩ (some 90) false :
          AttemptEv ℕ) :: []) = .masked 1 :=
  (try_cmd_timeout_masking 2 3 50 40 90 50 90 40 35 5 none ⟨false, true, false⟩
    false [] rfl (by norm_num) (by norm_num [BetaConfig.COMMAND_SUCCESS_TOL_CM])
    (by norm_num) (by norm_num [BetaConfig.COMMAND_SUCCESS_TOL_CM])
    (by norm_num [BetaConfig.TAKEOFF_SUCCESS_HEIGHT_CM])
    (by norm_num [BetaConfig.COMMAND_SUCCESS_TOL_CM])).1

lemma commandEffectSeen_none_before (isT : Bool) (lab : String) (args : List ℚ)
    (hA : Option ℚ) : commandEffectSeen isT lab none args hA = false := by
  cases isT <;> simp [commandEffectSeen]

lemma captureCommandSnapshot_outside {lab : String} (isT : Bool) (hB : Option ℚ)
    (h1 : lab ≠ "takeoff") (h2 : lab ≠ "land") (h3 : lab ≠ "move_up")
    (h4 : lab ≠ "move_down") :
    captureCommandSnapshot isT lab hB = none := by
  simp [captureCommandSnapshot, beq_iff_eq, h1, h2, h3, h4]

lemma commandEffectSeen_none_after (isT : Bool) (lab : String)
    (before : Option (Option ℚ)) (args : List ℚ) :
    commandEffectSeen isT lab before args none = false := by
  cases isT with
  | false => rfl
  | true =>
    cases before with
    | none => rfl
    | some bh =>
      unfold commandEffectSeen
      simp only [Bool.not_true, Bool.false_eq_true, if_false]
      split
      · rfl
      · rename_i afterRead heq
        have hnone : afterRead = none := by
          unfold captureCommandSnapshot at heq
          split at heq
          · cases heq; rfl
          · cases heq
        subst hnone
        cases bh <;> (repeat' split) <;> simp_all

lemma tryCmdGo_no_mask {α : Type} (isT : Bool) (label : String) (args : List ℚ)
    (base extra : ℕ)
    (hfx : ∀ hB hA, commandEffectSeen isT label
      (captureCommandSnapshot isT label hB) args hA = false) :
    ∀ (evs : List (AttemptEv α)) (attempts maxA n : ℕ),
      tryCmdGo isT label args base extra evs attempts maxA ≠ .masked n := by
  intro evs
  induction evs with
  | nil => intro attempts maxA n; simp [tryCmdGo]
  | cons ev rest ih =>
    intro attempts maxA n
    cases ev with
    | ok v => simp [tryCmdGo]
    | fail hB e hA rec =>
      rw [tryCmdGo]
      simp only [hfx hB hA, Bool.and_false, Bool.false_eq_true, if_false]
      split
      · exact ih _ _ _
      · split <;> split <;> first | exact ih _ _ _ | simp

/-- C10: `try_cmd` never converts a timeout into success without positive
telemetry evidence: for a label outside the four height-checked commands
the effect check is identically false and no run of the retry loop can
return via the masking branch; and for any label the effect check is false
when no pre-attempt snapshot was captured or no height is readable
afterwards. -/
theorem try_cmd_no_unverified_masking (label : String)
    (h1 : label ≠ "takeoff") (h2 : label ≠ "land") (h3 : label ≠ "move_up")
    (h4 : label ≠ "move_down") :
    (∀ (isT : Bool) (hB : Option ℚ) (args : List ℚ) (hA : Option ℚ),
      commandEffectSeen isT label (captureCommandSnapshot isT label hB) args hA
        = false) ∧
    (∀ (isT : Bool) (lab : String) (args : List ℚ) (hA : Option ℚ),
      commandEffectSeen isT lab none args hA = false) ∧
    (∀ (isT : Bool) (lab : String) (before : Option (Option ℚ)) (args : List ℚ),
      commandEffectSeen isT lab before args none = false) ∧
    (∀ (isT : Bool) (args : List ℚ) (base extra : ℕ)
        (evs : List (AttemptEv ℕ)) (attempts maxA n : ℕ),
      tryCmdGo isT label args base extra evs attempts maxA ≠ .masked n) := by
  refine ⟨?_, commandEffectSeen_none_before, commandEffectSeen_none_after, ?_⟩
  · intro isT hB args hA
    rw [captureCommandSnapshot_outside isT hB h1 h2 h3 h4]
    exact commandEffectSeen_none_before isT label args hA
  · intro isT args base extra evs attempts maxA n
    refine tryCmdGo_no_mask isT label args base extra ?_ evs attempts maxA n
    intro hB hA
    rw [captureCommandSnapshot_outside isT hB h1 h2 h3 h4]
    exact commandEffectSeen_none_before isT label args hA

/-- Witness for `try_cmd_no_unverified_masking`: a `move_forward` timeout
with all telemetry present is still never masked. -/
theorem try_cmd_no_unverified_masking_witness :
    commandEffectSeen true "move_forward"
      (captureCommandSnapshot true "move_forward" (some 40)) [60] (some 90)
        = false ∧
    tryCmdGo true "move_forward" [60] 3 3
      ([.fail (some 40) ⟨false, true, false⟩ (some 90) false] : List (AttemptEv ℕ))
      0 3 ≠ .masked 1 := by
  have h := try_cmd_no_unverified_masking "move_forward"
    (by decide) (by decide) (by decide) (by decide)
  exact ⟨h.1 true (some 40) [60] (some 90),
    h.2.2.2 true [60] 3 3 [.fail (some 40) ⟨false, true, false⟩ (some 90) false] 0 3 1⟩

/-! ## Chunked signed rotation (`rotate_signed_deg`, beta_main.py
lines 310-351, and `rc_yaw_fallback`, lines 354-375)

Each loop chunk issues one `try_cmd`-wrapped discrete rotate; its outcome
(success, or a raised classified error together with whether the fallback
`send_rc_control` call would succeed) is an oracle input.  The initial
`send_rc_control(0,0,0,0)` stop command and the sleeps move nothing and are
not modelled as rotation commands. -/

inductive ChunkOut where
  | ok
  | raised (e : PyErr) (rcSendOk : Bool)
deriving DecidableEq, Repr

/-- Rotation-producing commands issued by `rotate_signed_deg`: a completed
discrete rotate chunk, or a completed open-loop RC yaw fallback; both carry
the signed degrees (positive = counter-clockwise, as in the source where
`a > 0` selects `rotate_counter_clockwise`). -/
inductive RotEv where
  | rot (deg : ℤ)
  | rcYaw (deg : ℤ)
deriving DecidableEq, Repr

inductive RunOut where
  | ok
  | err (e : PyErr)
  | noMoreInput
deriving DecidableEq, Repr

structure RotRes where
  trace : List RotEv
  out : RunOut
deriving DecidableEq, Repr

/-- `step_limit = abs(int(chunk_cfg)) if chunk_cfg else 0`. -/
def turnStepLimit : ℕ :=
  if BetaConfig.TURN_CHUNK_DEG = 0 then 0 else BetaConfig.TURN_CHUNK_DEG

/-- `rc_yaw_fallback`: disabled when the RC speed or rate is configured off
or the step is zero; otherwise succeeds iff the `send_rc_control` call does. -/
def rcYawFallback (stepDeg : ℤ) (sendOk : Bool) : Bool :=
  let speed : ℤ := |BetaConfig.RC_YAW_SPEED|
  if speed ≤ 0 ∨ BetaConfig.RC_YAW_DEG_PER_SEC ≤ 0 ∨ stepDeg = 0 then false
  else sendOk

def rotateChunks (pos : Bool) (remaining : ℕ) (outs : List ChunkOut) : RotRes :=
  if _h : 0 < remaining then
    let step := if turnStepLimit ≤ 0 then remaining else min remaining turnStepLimit
    match outs with
    | [] => ⟨[], .noMoreInput⟩
    | o :: os =>
      match o with
      | .ok =>
        let r := rotateChunks pos (remaining - step) os
        ⟨.rot (if pos then (step : ℤ) else -(step : ℤ)) :: r.trace, r.out⟩
      | .raised e sendOk =>
        if e.imu then
          let fallbackDeg : ℤ := if pos then (step : ℤ) else -(step : ℤ)
          if rcYawFallback fallbackDeg sendOk then
            let r := rotateChunks pos (remaining - step) os
            ⟨.rcYaw fallbackDeg :: r.trace, r.out⟩
          else ⟨[], .ok⟩
        else ⟨[], .err e⟩
  else ⟨[], .ok⟩
termination_by remaining
decreasing_by
  all_goals
    norm_num [turnStepLimit, BetaConfig.TURN_CHUNK_DEG]
    omega

/-- `rotate_signed_deg(t, ang_deg)`. -/
def rotateSignedDeg (angDeg : ℚ) (outs : List ChunkOut) : RotRes :=
  let a := pyRound angDeg
  if a = 0 then ⟨[], .ok⟩
  else
    let minTurn : ℤ := max 0 (BetaConfig.MIN_TURN_DEG : ℤ)
    if |a| < minTurn then ⟨[], .ok⟩
    else rotateChunks (0 < a) a.natAbs outs

/-- A chunk outcome on which the turn loop makes progress: the discrete
rotate succeeded, or it raised an IMU-classified error and the RC fallback
send succeeded. -/
def chunkSucceeds : ChunkOut → Prop
  | .ok => True
  | .raised e sendOk => e.imu = true ∧ sendOk = true

instance : DecidablePred chunkSucceeds := by
  intro o
  cases o with
  | ok => exact .isTrue trivial
  | raised e sendOk => exact instDecidableAnd

def rotEvMag : RotEv → ℕ
  | .rot d => d.natAbs
  | .rcYaw d => d.natAbs

def rotEvDeg : RotEv → ℤ
  | .rot d => d
  | .rcYaw d => d

lemma rotateChunks_zero (pos : Bool) (outs : List ChunkOut) :
    rotateChunks pos 0 outs = ⟨[], .ok⟩ := by
  unfold rotateChunks
  rw [dif_neg (Nat.lt_irrefl 0)]

lemma rotateChunks_good (pos : Bool) :
    ∀ (n : ℕ) (outs : List ChunkOut), (∀ o ∈ outs, chunkSucceeds o) →
      n ≤ outs.length →
      (rotateChunks pos n outs).out = .ok ∧
      ((rotateChunks pos n outs).trace.map rotEvMag).sum = n ∧
      (∀ ev ∈ (rotateChunks pos n outs).trace,
        rotEvMag ev ≤ BetaConfig.TURN_CHUNK_DEG ∧
        (pos = true → 0 < rotEvDeg ev) ∧ (pos = false → rotEvDeg ev < 0)) := by
  intro n
  induction n using Nat.strong_induction_on with
  | _ n ih =>
    intro outs hgood hlen
    rcases Nat.eq_zero_or_pos n with hn | hn
    · subst hn
      rw [rotateChunks_zero]
      exact ⟨rfl, rfl, by simp⟩
    · have htls : turnStepLimit = 45 := by
        simp [turnStepLimit, BetaConfig.TURN_CHUNK_DEG]
      have hstep : (if turnStepLimit ≤ 0 then n else min n turnStepLimit)
          = min n turnStepLimit := by
        rw [htls]
        norm_num
      set step := min n turnStepLimit with hstepdef
      have hstep1 : 1 ≤ step := by
        rw [hstepdef, htls]
        omega
      have hstep45 : step ≤ BetaConfig.TURN_CHUNK_DEG := by
        rw [hstepdef, htls]
        simp only [BetaConfig.TURN_CHUNK_DEG]
        omega
      have hstepn : step ≤ n := min_le_left _ _
      match outs with
      | [] => simp at hlen; omega
      | o :: os =>
        have hosgood : ∀ x ∈ os, chunkSucceeds x :=
          fun x hx => hgood x (List.mem_cons_of_mem o hx)
        have hoslen : n - step ≤ os.length := by
          simp only [List.length_cons] at hlen
          omega
        obtain ⟨ih1, ih2, ih3⟩ := ih (n - step) (by omega) os hosgood hoslen
        have hsign : ∀ s : ℕ, 1 ≤ s →
            (pos = true → 0 < (if pos then (s : ℤ) else -(s : ℤ))) ∧
            (pos = false → (if pos then (s : ℤ) else -(s : ℤ)) < 0) := by
          intro s hs
          cases pos <;> simp <;> omega
        cases o with
        | ok =>
          unfold rotateChunks
          rw [dif_pos hn]
          simp only [hstep, ← hstepdef]
          refine ⟨ih1, ?_, ?_⟩
          · simp only [List.map_cons, List.sum_cons, rotEvMag]
            have : (if pos then (step : ℤ) else -(step : ℤ)).natAbs = step := by
              cases pos <;> simp
            rw [this, ih2]
            omega
          · intro ev hev
            rcases List.mem_cons.mp hev with hev | hev
            · subst hev
              refine ⟨?_, (hsign step hstep1).1, (hsign step hstep1).2⟩
              simp only [rotEvMag]
              have : (if pos then (step : ℤ) else -(step : ℤ)).natAbs = step := by
                cases pos <;> simp
              omega
            · exact ih3 ev hev
        | raised e sendOk =>
          obtain ⟨himu, hsend⟩ := hgood (.raised e sendOk) (List.mem_cons_self _ _)
          have hfb : rcYawFallback (if pos then (step : ℤ) else -(step : ℤ)) sendOk
              = true := by
            subst hsend
            unfold rcYawFallback
            rw [if_neg]
            push_neg
            refine ⟨by simp [BetaConfig.RC_YAW_SPEED], ?_, ?_⟩
            · simp [BetaConfig.RC_YAW_DEG_PER_SEC]
            · cases pos <;> simp <;> omega
          unfold rotateChunks
          rw [dif_pos hn]
          simp only [hstep, ← hstepdef, himu, if_pos, hfb, if_true]
          refine ⟨ih1, ?_, ?_⟩
          · simp only [List.map_cons, List.sum_cons, rotEvMag]
            have : (if pos then (step : ℤ) else -(step : ℤ)).natAbs = step := by
              cases pos <;> simp
            rw [this, ih2]
            omega
          · intro ev hev
            rcases List.mem_cons.mp hev with hev | hev
            · subst hev
              refine ⟨?_, (hsign step hstep1).1, (hsign step hstep1).2⟩
              simp only [rotEvMag]
              have : (if pos then (step : ℤ) else -(step : ℤ)).natAbs = step := by
                cases pos <;> simp
              omega
            · exact ih3 ev hev

lemma rcYawFallback_pos {d : ℤ} (hd : d ≠ 0) : rcYawFallback d true = true := by
  unfold rcYawFallback
  rw [if_neg]
  push_neg
  exact ⟨by norm_num [BetaConfig.RC_YAW_SPEED],
    by norm_num [BetaConfig.RC_YAW_DEG_PER_SEC], hd⟩

/-- C9: a rounded angle with `0 < |round(a)| < MIN_TURN_DEG` issues no
rotation command; otherwise (given enough chunk outcomes, each a success or
an IMU failure with a working RC fallback) the turn is executed as
same-direction chunks, each of magnitude at most `TURN_CHUNK_DEG`, whose
magnitudes sum to `|round(a)|`; and a chunk whose discrete rotate raises an
IMU-classified error is replaced by an open-loop RC yaw of the same signed
magnitude, after which the remaining chunks are still issued. -/
theorem rotate_signed_chunking (ang : ℚ) (outs : List ChunkOut)
    (hgood : ∀ o ∈ outs, chunkSucceeds o)
    (hlen : (pyRound ang).natAbs ≤ outs.length)
    (hbig : BetaConfig.MIN_TURN_DEG ≤ (pyRound ang).natAbs) :
    (∀ (b : ℚ) (outs2 : List ChunkOut), pyRound b ≠ 0 →
      (pyRound b).natAbs < BetaConfig.MIN_TURN_DEG →
      rotateSignedDeg b outs2 = ⟨[], .ok⟩) ∧
    (rotateSignedDeg ang outs).out = .ok ∧
    ((rotateSignedDeg ang outs).trace.map rotEvMag).sum = (pyRound ang).natAbs ∧
    (∀ ev ∈ (rotateSignedDeg ang outs).trace,
      rotEvMag ev ≤ BetaConfig.TURN_CHUNK_DEG ∧
      (0 < pyRound ang → 0 < rotEvDeg ev) ∧
      (pyRound ang < 0 → rotEvDeg ev < 0)) ∧
    (∀ (pos : Bool) (n : ℕ) (e : PyErr) (os : List ChunkOut),
      e.imu = true → 0 < n →
      rotateChunks pos n (.raised e true :: os) =
        ⟨.rcYaw (if pos then ((min n turnStepLimit : ℕ) : ℤ)
            else -((min n turnStepLimit : ℕ) : ℤ)) ::
          (rotateChunks pos (n - min n turnStepLimit) os).trace,
         (rotateChunks pos (n - min n turnStepLimit) os).out⟩) := by
  have ha : pyRound ang ≠ 0 := by
    intro h0
    rw [h0] at hbig
    simp [BetaConfig.MIN_TURN_DEG] at hbig
  have hunfold : rotateSignedDeg ang outs =
      rotateChunks (decide (0 < pyRound ang)) (pyRound ang).natAbs outs := by
    unfold rotateSignedDeg
    rw [if_neg ha, if_neg]
    rw [Int.abs_eq_natAbs]
    simp only [BetaConfig.MIN_TURN_DEG] at hbig ⊢
    omega
  obtain ⟨g1, g2, g3⟩ := rotateChunks_good (decide (0 < pyRound ang))
    (pyRound ang).natAbs outs hgood hlen
  refine ⟨?_, by rw [hunfold]; exact g1, by rw [hunfold]; exact g2, ?_, ?_⟩
  · -- dead zone
    intro b outs2 hb0 hbsmall
    unfold rotateSignedDeg
    rw [if_neg hb0, if_pos]
    rw [Int.abs_eq_natAbs]
    simp only [BetaConfig.MIN_TURN_DEG] at hbsmall ⊢
    omega
  · intro ev hev
    rw [hunfold] at hev
    obtain ⟨m1, m2, m3⟩ := g3 ev hev
    refine ⟨m1, ?_, ?_⟩
    · intro hpos
      exact m2 (decide_eq_true hpos)
    · intro hneg
      refine m3 (decide_eq_false ?_)
      omega
  · -- IMU chunk replaced by RC yaw, remaining chunks still issued
    intro pos n e os himu hn
    have hstep : (if turnStepLimit ≤ 0 then n else min n turnStepLimit)
        = min n turnStepLimit := by
      norm_num [turnStepLimit, BetaConfig.TURN_CHUNK_DEG]
    have hstep1 : 1 ≤ min n turnStepLimit := by
      norm_num [turnStepLimit, BetaConfig.TURN_CHUNK_DEG]
      omega
    have hdeg : (if pos then ((min n turnStepLimit : ℕ) : ℤ)
        else -((min n turnStepLimit : ℕ) : ℤ)) ≠ 0 := by
      cases pos <;> simp <;> omega
    conv_lhs => rw [rotateChunks]
    rw [dif_pos hn]
    simp only [hstep, himu, if_pos, rcYawFallback_pos hdeg, if_true]

/-- Witness for `rotate_signed_chunking`: a +90 degree turn with every
chunk succeeding executes fully. -/
theorem rotate_signed_chunking_witness :
    (rotateSignedDeg 90 (List.replicate 90 ChunkOut.ok)).out = .ok ∧
    ((rotateSignedDeg 90 (List.replicate 90 ChunkOut.ok)).trace.map rotEvMag).sum
      = (pyRound 90).natAbs := by
  have h90 : pyRound 90 = 90 := by norm_num [pyRound]
  have h := rotate_signed_chunking 90 (List.replicate 90 ChunkOut.ok)
    (fun o ho => by rw [List.eq_of_mem_replicate ho]; trivial)
    (by rw [h90]; simp)
    (by rw [h90]; norm_num [BetaConfig.MIN_TURN_DEG])
  exact ⟨h.2.1, h.2.2.1⟩

/-! ## Segment executor (`main`, beta_main.py lines 581-654)

The mission loop with the detector disabled (`detector is None`), as run
when AI and preview are off.  Oracle streams: one battery read per segment
(`none` models a raised or unusable `get_battery`), the outcome of each
segment-turn `rotate_signed_deg`, the yaw telemetry read after each turn,
the outcome of each `move_forward` `try_cmd`, and the inputs of each
heading correction.  `safe_land` always runs in the `finally` block. -/

inductive MEv where
  | rotate (deg : ℤ)
  | moveForward (cm : ℕ)
  | land
deriving DecidableEq, Repr

inductive SegOut where
  | completed
  | lowBattery
  | errored (e : PyErr)
  | noMoreInput
deriving DecidableEq, Repr

structure SegEnv where
  batteries : List (Option ℤ)
  rotates : List (Option PyErr)
  yawsTel : List (Option ℚ)
  moves : List (Option PyErr)
  corrs : List CorrEnv
deriving DecidableEq, Repr

structure AdvRes where
  trace : List MEv
  expected : ℚ
  moves : List (Option PyErr)
  corrs : List CorrEnv
  out : RunOut
deriving DecidableEq, Repr

/-- The advancing loop of one segment: a failed `move_forward` breaks out of
the segment (logged, not fatal); a heading-correction failure propagates as
a runtime error. -/
def advanceLoop (remaining : ℕ) (expected : ℚ)
    (moves : List (Option PyErr)) (corrs : List CorrEnv) : AdvRes :=
  if _h : BetaConfig.MIN_MOVE_CM ≤ remaining then
    match moves with
    | [] => ⟨[], expected, [], corrs, .noMoreInput⟩
    | mo :: ms =>
      let step := min BetaConfig.FORWARD_STEP_CM (min remaining BetaConfig.MAX_MOVE_CM)
      match mo with
      | some _ => ⟨[], expected, ms, corrs, .ok⟩
      | none =>
        match corrs with
        | [] => ⟨[.moveForward step], expected, ms, [], .noMoreInput⟩
        | ce :: cs =>
          match correctHeadingIfNeeded expected ce with
          | .error e => ⟨[.moveForward step], expected, ms, cs, .err e⟩
          | .ok e2 =>
            let r := advanceLoop (remaining - step) e2 ms cs
            ⟨.moveForward step :: r.trace, r.expected, r.moves, r.corrs, r.out⟩
  else ⟨[], expected, moves, corrs, .ok⟩
termination_by remaining
decreasing_by
  simp only [BetaConfig.MIN_MOVE_CM, BetaConfig.FORWARD_STEP_CM,
    BetaConfig.MAX_MOVE_CM] at *
  omega

inductive PhaseRes (α : Type) where
  | ok (a : α)
  | raisedE (e : PyErr)
  | dry
deriving DecidableEq, Repr

/-- The turning phase of one segment (`if turn_deg:` block): rotate, update
the expected yaw by the commanded delta, then reconcile with telemetry. -/
def segTurnPhase (expected : ℚ) (env : SegEnv) (turnDeg : ℤ) :
    PhaseRes (List MEv × ℚ × SegEnv) :=
  if turnDeg = 0 then .ok ([], expected, env)
  else
    match env.rotates with
    | [] => .dry
    | ro :: rs =>
      let env1 := {env with rotates := rs}
      match ro with
      | some e => .raisedE e
      | none =>
        let e1 := normalizeYaw (expected + (turnDeg : ℚ))
        match env1.yawsTel with
        | [] => .dry
        | ya :: ys =>
          let env2 := {env1 with yawsTel := ys}
          let e2 := match ya with
            | some y => normalizeYaw y
            | none => e1
          .ok ([MEv.rotate turnDeg], e2, env2)

structure SegRes where
  trace : List MEv
  out : SegOut
deriving DecidableEq, Repr

/-- The per-segment loop of `main`: battery check (at or below
`LOW_BATT_RTH` aborts the remaining plan; a failed read continues), turn
phase, then the advancing loop. -/
def segsLoop (expected : ℚ) (env : SegEnv) : List (ℤ × ℤ) → SegRes
  | [] => ⟨[], .completed⟩
  | (turnDeg, distCm) :: rest =>
    match env.batteries with
    | [] => ⟨[], .noMoreInput⟩
    | b :: bs =>
      let env1 := {env with batteries := bs}
      let lowBatt := match b with
        | some bv => decide (bv ≤ BetaConfig.LOW_BATT_RTH)
        | none => false
      if lowBatt then ⟨[], .lowBattery⟩
      else
        match segTurnPhase expected env1 turnDeg with
        | .dry => ⟨[], .noMoreInput⟩
        | .raisedE e => ⟨[], .errored e⟩
        | .ok (tr, e2, env2) =>
          let adv := advanceLoop distCm.toNat e2 env2.moves env2.corrs
          let env3 := {env2 with moves := adv.moves, corrs := adv.corrs}
          match adv.out with
          | .err e => ⟨tr ++ adv.trace, .errored e⟩
          | .noMoreInput => ⟨tr ++ adv.trace, .noMoreInput⟩
          | .ok =>
            let r := segsLoop adv.expected env3 rest
            ⟨tr ++ adv.trace ++ r.trace, r.out⟩

/-- The mission after takeoff: run the segment loop, then always land
(`finally: safe_land`). -/
def missionRun (segs : List (ℤ × ℤ)) (expected : ℚ) (env : SegEnv) : SegRes :=
  let r := segsLoop expected env segs
  ⟨r.trace ++ [MEv.land], r.out⟩

/-- C8: a battery reading at or below `LOW_BATT_RTH` before any segment
makes the mission execute no further segments and transition directly to
landing with terminal outcome `lowBattery` (the `aborted_low_battery`
status); in particular a plan `[(0,100),(90,50)]` with battery reads 100
then 18 executes only segment 1's sub-steps `[60, 40]` and then lands. -/
theorem low_battery_abort (turn dist : ℤ) (rest : List (ℤ × ℤ))
    (expected : ℚ) (env : SegEnv) (b : ℤ) (bs : List (Option ℤ))
    (hb : env.batteries = some b :: bs) (hle : b ≤ BetaConfig.LOW_BATT_RTH) :
    segsLoop expected env ((turn, dist) :: rest) = ⟨[], .lowBattery⟩ ∧
    missionRun ((turn, dist) :: rest) expected env = ⟨[MEv.land], .lowBattery⟩ ∧
    missionRun [(0, 100), (90, 50)] 0
        ⟨[some 100, some 18], [], [], [none, none],
          [⟨none, none, none⟩, ⟨none, none, none⟩]⟩ =
      ⟨[MEv.moveForward 60, MEv.moveForward 40, MEv.land], .lowBattery⟩ := by
  have h1 : segsLoop expected env ((turn, dist) :: rest) = ⟨[], .lowBattery⟩ := by
    rw [segsLoop, hb]
    simp [hle]
  refine ⟨h1, by simp [missionRun, h1], ?_⟩
  have ht1 : (100 : ℤ).toNat = 100 := rfl
  have ht2 : (50 : ℤ).toNat = 50 := rfl
  norm_num [missionRun, segsLoop, segTurnPhase, advanceLoop,
    correctHeadingIfNeeded, ht1, ht2, BetaConfig.MIN_MOVE_CM,
    BetaConfig.FORWARD_STEP_CM, BetaConfig.MAX_MOVE_CM, BetaConfig.LOW_BATT_RTH,
    BetaConfig.DRIFT_HEADING_TOL_DEG]

/-- Witness for `low_battery_abort`: one segment, battery 18. -/
theorem low_battery_abort_witness :
    segsLoop 0 ⟨[some 18], [], [], [], []⟩ [(0, 100)] = ⟨[], .lowBattery⟩ :=
  (low_battery_abort 0 100 [] 0 ⟨[some 18], [], [], [], []⟩ 18 [] rfl
    (by norm_num [BetaConfig.LOW_BATT_RTH])).1

/-! ## Detections and monocular distance estimation
(`FireDetection` from beta_detect.py; `_estimate_distance_m`,
`_pixels_to_yaw_deg` and `TARGET_SPECS` from the archived beta variant) -/

structure FireDetection where
  has_fire : Bool
  dx : ℚ
  dy : ℚ
  area_frac : ℚ
  conf : ℚ
  bbox : Option (ℤ × ℤ × ℤ × ℤ)
  ts : ℚ
  label : Option String
deriving DecidableEq, Repr

structure TargetSpec where
  real_width_m : ℚ
  approach_distance_m : ℚ
deriving DecidableEq, Repr

namespace ArchConfig

def FRAME_W : ℚ := 960
def H_FOV_DEG : ℚ := 82

/-- `TARGET_SPECS` of the archived config: only the `fire` entry, with
`real_width_m = 0.066` and `approach_distance_m = 0.70`. -/
def TARGET_SPECS : List (String × TargetSpec) := [("fire", ⟨66/1000, 7/10⟩)]

end ArchConfig

/-- `focal_px = (FRAME_W / 2) / tan(radians(H_FOV_DEG / 2))`. -/
noncomputable def focalPx : ℝ :=
  (ArchConfig.FRAME_W : ℝ) / 2 /
    Real.tan ((ArchConfig.H_FOV_DEG : ℝ) / 2 * Real.pi / 180)

/-- `_estimate_distance_m(detection, spec)`. -/
noncomputable def estimateDistanceM (det : FireDetection) (spec : TargetSpec) :
    Option ℝ :=
  match det.bbox with
  | none => none
  | some (x1, _, x2, _) =>
    if (spec.real_width_m : ℝ) ≤ 0 then none
    else
      let boxWidthPx : ℝ := ((max 1 (x2 - x1) : ℤ) : ℝ)
      some ((spec.real_width_m : ℝ) * focalPx / boxWidthPx)

/-- C6: for a bounding box of pixel width at least 1 and a positive real
width, the estimated slant distance is the pinhole value
`real_width_m * focal_px / box_width_px` with
`focal_px = (FRAME_W/2) / tan(H_FOV_DEG/2 in radians)`; at
`real_width_m = 0.066`, width 100 px, it equals
`0.066 * (480 / tan(41 deg)) / 100`. -/
theorem pinhole_distance_formula (det : FireDetection) (spec : TargetSpec)
    (x1 y1 x2 y2 : ℤ) (hbb : det.bbox = some (x1, y1, x2, y2))
    (hw : 1 ≤ x2 - x1) (hpos : 0 < spec.real_width_m) :
    estimateDistanceM det spec =
      some ((spec.real_width_m : ℝ) *
        ((ArchConfig.FRAME_W : ℝ) / 2 /
          Real.tan ((ArchConfig.H_FOV_DEG : ℝ) / 2 * Real.pi / 180)) /
        ((x2 - x1 : ℤ) : ℝ)) ∧
    estimateDistanceM ⟨true, 0, 0, 0, 1, some (0, 0, 100, 0), 0, some "fire"⟩
        ⟨66/1000, 7/10⟩ =
      some ((0.066 : ℝ) * (480 / Real.tan (41 * Real.pi / 180)) / 100) := by
  constructor
  · unfold estimateDistanceM
    rw [hbb]
    dsimp only
    have hwpos : (0 : ℝ) < (spec.real_width_m : ℝ) := by exact_mod_cast hpos
    rw [if_neg (not_le.mpr hwpos), max_eq_right hw]
    rfl
  · unfold estimateDistanceM focalPx
    norm_num [ArchConfig.FRAME_W, ArchConfig.H_FOV_DEG]

/-- Witness for `pinhole_distance_formula` at the 100-pixel-wide box. -/
theorem pinhole_distance_formula_witness :
    estimateDistanceM ⟨true, 0, 0, 0, 1, some (0, 0, 100, 0), 0, some "fire"⟩
        ⟨66/1000, 7/10⟩ =
      some ((0.066 : ℝ) * (480 / Real.tan (41 * Real.pi / 180)) / 100) :=
  (pinhole_distance_formula ⟨true, 0, 0, 0, 1, some (0, 0, 100, 0), 0, some "fire"⟩
    ⟨66/1000, 7/10⟩ 0 0 100 0 rfl (by norm_num) (by norm_num)).2

/-! ## Target engagement state machine
(`engage_target`, archived beta_main.py lines 463-640)

Oracle streams consumed in program order: `times` for each `time.time()`
read, `fetches` for each `fetch_detection` result (the nested polling of
`fetch_detection` runs against the external detector and clock, so one call
is one oracle value), `cmds` for the outcome of each `try_cmd`-wrapped
actuator call and of the final `rotate_signed_deg` (`none` = returned,
`some e` = raised after exhausting retries), and `yaws` for each
`get_current_yaw` read.  The distance estimator
`_estimate_distance_m(det, spec)` is real-valued (`tan`); the episode only
compares and scales its output, so it enters the model as a parameter
`est : FireDetection → Option ℚ`.  Trace events record commands that
completed; a raised command ends the episode with `raisedE` instead.
`pump_preview`, sleeps, the hold keepalive probe and the
`set_detector_status` overlay calls move nothing and produce no events. -/

structure Aux where
  times : List ℚ
  cmds : List (Option PyErr)
  yaws : List (Option ℚ)
deriving DecidableEq, Repr

inductive EngEv where
  | rotCW (deg : ℤ)
  | rotCCW (deg : ℤ)
  | moveForward (cm : ℕ)
  | moveBack (cm : ℕ)
  | rotateSigned (deg : ℚ)
deriving DecidableEq, Repr

inductive EngOut where
  | done
  | raisedE (e : PyErr)
  | noMoreInput
deriving DecidableEq, Repr

/-- `str.lower()` on the character list (the labels of interest are
ASCII, where Python's `lower` agrees with character-wise `Char.toLower`). -/
def strLower (s : String) : String :=
  ⟨s.data.map Char.toLower⟩

/-- `label = (initial_det.label or "fire").lower()`. -/
def labelOf (det : FireDetection) : String :=
  strLower (match det.label with
   | some s => if s = "" then "fire" else s
   | none => "fire")

/-- `det.label == label or det.label is None`. -/
def labelMatches (det : FireDetection) (label : String) : Bool :=
  match det.label with
  | some s => s == label
  | none => true

/-- `spec = C.TARGET_SPECS.get(label, C.TARGET_SPECS.get("fire"))`. -/
def lookupSpec (specs : List (String × TargetSpec)) (label : String) :
    Option TargetSpec :=
  match specs.lookup label with
  | some s => some s
  | none => specs.lookup "fire"

/-- `_pixels_to_yaw_deg(dx)` (archived beta_main.py lines 418-424). -/
def pixelsToYawDeg (dx : ℚ) : ℚ :=
  if ArchConfig.FRAME_W = 0 ∨ ArchConfig.H_FOV_DEG = 0 then 0
  else
    let halfWidth := ArchConfig.FRAME_W / 2
    if halfWidth ≤ 0 then 0
    else dx / halfWidth * (ArchConfig.H_FOV_DEG / 2)

/-- `yaw_to_center(det)`: a positive rounded yaw step turns clockwise.
Returns `none` when the command oracle is exhausted, otherwise the issued
events, the raised error if any, and the updated oracles. -/
def yawToCenter (det : FireDetection) (aux : Aux) :
    Option (List EngEv × Option PyErr × Aux) :=
  let yawStep := pyRound (pixelsToYawDeg det.dx)
  if max 1 (BetaConfig.MIN_TURN_DEG : ℤ) ≤ |yawStep| then
    match aux.cmds with
    | [] => none
    | c :: cs =>
      let aux1 := {aux with cmds := cs}
      match c with
      | some e => some ([], some e, aux1)
      | none =>
        some ([if 0 < yawStep then EngEv.rotCW yawStep
          else EngEv.rotCCW (-yawStep)], none, aux1)
  else some ([], none, aux)

/-- `max(0, int(round(max(0.0, delta) * 100.0)))` as a natural number. -/
def remainingForwardCm (delta : ℚ) : ℕ :=
  (max 0 (pyRound (max 0 delta * 100))).toNat

structure ApproachRes where
  trace : List EngEv
  total : ℕ
  success : Bool
  visible : Bool
  lastSeen : ℚ
  fetches : List (Option FireDetection)
  aux : Aux
  out : EngOut
deriving DecidableEq, Repr

/-- The `Approach` loop (`while time.time() - start_time < APPROACH_TIMEOUT_S`):
re-poll, re-center and step toward the standoff distance while detected;
within the lost grace keep polling; past it take blind steps toward the
last estimated standoff; otherwise conclude the target lost. -/
def approachLoop (label : String) (desired : ℚ) (est : FireDetection → Option ℚ)
    (startTime : ℚ) (lastSeen : ℚ) (remainingFwd total : ℕ)
    (fetches : List (Option FireDetection)) (aux : Aux) : ApproachRes :=
  match aux.times with
  | [] => ⟨[], total, false, false, lastSeen, fetches, {aux with times := []}, .noMoreInput⟩
  | tNow :: ts =>
    let aux1 := {aux with times := ts}
    if tNow - startTime < ArchConfig.APPROACH_TIMEOUT_S then
      match fetches with
      | [] => ⟨[], total, false, false, lastSeen, [], aux1, .noMoreInput⟩
      | fd :: fs =>
        match aux1.times with
        | [] => ⟨[], total, false, false, lastSeen, fs, {aux1 with times := []}, .noMoreInput⟩
        | tN :: ts2 =>
          let aux2 := {aux1 with times := ts2}
          let detOpt : Option FireDetection := match fd with
            | some det =>
              if det.has_fire && labelMatches det label then some det else none
            | none => none
          match detOpt with
          | some det =>
            match yawToCenter det aux2 with
            | none => ⟨[], total, false, false, tN, fs, aux2, .noMoreInput⟩
            | some (tr, some e, aux3) => ⟨tr, total, false, false, tN, fs, aux3, .raisedE e⟩
            | some (tr, none, aux3) =>
              match est det with
              | none =>
                let r := approachLoop label desired est startTime tN remainingFwd total fs aux3
                {r with trace := tr ++ r.trace}
              | some distanceM =>
                let delta := distanceM - desired
                let rem2 := remainingForwardCm delta
                if |delta| ≤ ArchConfig.APPROACH_DISTANCE_TOL_CM / 100 then
                  ⟨tr, total, true, true, tN, fs, aux3, .done⟩
                else
                  let stepA := max BetaConfig.MIN_MOVE_CM (min BetaConfig.MAX_MOVE_CM rem2)
                  let stepCm := if 0 < ArchConfig.FORWARD_APPROACH_STEP_CM
                    then max BetaConfig.MIN_MOVE_CM (min stepA ArchConfig.FORWARD_APPROACH_STEP_CM)
                    else stepA
                  match aux3.cmds with
                  | [] => ⟨tr, total, false, false, tN, fs, {aux3 with cmds := []}, .noMoreInput⟩
                  | c :: cs =>
                    let aux4 := {aux3 with cmds := cs}
                    match c with
                    | some e => ⟨tr, total, false, false, tN, fs, aux4, .raisedE e⟩
                    | none =>
                      let r := approachLoop label desired est startTime tN rem2
                        (total + stepCm) fs aux4
                      {r with trace := tr ++ EngEv.moveForward stepCm :: r.trace}
          | none =>
            if tN - lastSeen ≤ ArchConfig.APPROACH_LOST_MS / 1000 then
              approachLoop label desired est startTime lastSeen remainingFwd total fs aux2
            else
              let distTolCm : ℤ := pyRound (ArchConfig.APPROACH_DISTANCE_TOL_CM / 100 * 100)
              if distTolCm < (remainingFwd : ℤ) then
                let stepCm := max BetaConfig.MIN_MOVE_CM
                  (if ArchConfig.FORWARD_APPROACH_STEP_CM ≤ 0 then remainingFwd
                   else min remainingFwd ArchConfig.FORWARD_APPROACH_STEP_CM)
                match aux2.cmds with
                | [] => ⟨[], total, false, false, lastSeen, fs, {aux2 with cmds := []}, .noMoreInput⟩
                | c :: cs =>
                  let aux3 := {aux2 with cmds := cs}
                  match c with
                  | some e => ⟨[], total, false, false, lastSeen, fs, aux3, .raisedE e⟩
                  | none =>
                    let rem2 := remainingFwd - stepCm
                    if (rem2 : ℤ) ≤ distTolCm then
                      ⟨[EngEv.moveForward stepCm], total + stepCm, true, false,
                        lastSeen, fs, aux3, .done⟩
                    else
                      let r := approachLoop label desired est startTime lastSeen rem2
                        (total + stepCm) fs aux3
                      {r with trace := EngEv.moveForward stepCm :: r.trace}
              else ⟨[], total, false, false, lastSeen, fs, aux2, .done⟩
    else ⟨[], total, false, false, lastSeen, fetches, aux1, .done⟩

structure HoldRes where
  fetches : List (Option FireDetection)
  aux : Aux
  out : EngOut
deriving DecidableEq, Repr

/-- The `Hold` loop (archived beta_main.py lines 596-618): poll until the
target is unseen for more than the grace period; the low-rate keepalive
probe is a no-op command whose failure is swallowed. -/
def holdLoop (label : String) (lastVisible lastKeepalive : ℚ)
    (fetches : List (Option FireDetection)) (aux : Aux) : HoldRes :=
  match aux.times with
  | [] => ⟨fetches, {aux with times := []}, .noMoreInput⟩
  | now :: ts =>
    let aux1 := {aux with times := ts}
    let lk := if 8 < now - lastKeepalive then now else lastKeepalive
    match fetches with
    | [] => ⟨[], aux1, .noMoreInput⟩
    | fd :: fs =>
      let hit : Bool := match fd with
        | some det => det.has_fire && labelMatches det label
        | none => false
      if hit then holdLoop label now lk fs aux1
      else if ArchConfig.FIRE_LOST_MS / 1000 < now - lastVisible then ⟨fs, aux1, .done⟩
      else holdLoop label lastVisible lk fs aux1

structure EngRes where
  trace : List EngEv
  success : Bool
  out : EngOut
deriving DecidableEq, Repr

/-- `RestoreHeading`: compare the yaw telemetry against the yaw recorded at
episode entry and cancel a difference at or above the minimum turn via
`rotate_signed_deg` (abstracted as one command outcome). -/
def restorePhase (tr : List EngEv) (success : Bool) (initialYaw : Option ℚ)
    (aux : Aux) : EngRes :=
  match initialYaw with
  | none => ⟨tr, success, .done⟩
  | some y0 =>
    match aux.yaws with
    | [] => ⟨tr, success, .noMoreInput⟩
    | cy :: ys =>
      let aux1 := {aux with yaws := ys}
      match cy with
      | none => ⟨tr, success, .done⟩
      | some cyv =>
        let yawErr := normalizeYaw (cyv - y0)
        let correction := normalizeYaw (-yawErr)
        if ((max 1 (BetaConfig.MIN_TURN_DEG : ℤ) : ℤ) : ℚ) ≤ |correction| then
          match aux1.cmds with
          | [] => ⟨tr, success, .noMoreInput⟩
          | c :: cs =>
            match c with
            | some e => ⟨tr, success, .raisedE e⟩
            | none => ⟨tr ++ [EngEv.rotateSigned correction], success, .done⟩
        else ⟨tr, success, .done⟩

/-- `Retreat` then `RestoreHeading`: one compensating `move_back` of the
accumulated forward total when it is positive. -/
def retreatRestore (tr : List EngEv) (success : Bool) (total : ℕ)
    (initialYaw : Option ℚ) (aux : Aux) : EngRes :=
  if 0 < total then
    match aux.cmds with
    | [] => ⟨tr, success, .noMoreInput⟩
    | c :: cs =>
      let aux1 := {aux with cmds := cs}
      match c with
      | some e => ⟨tr, success, .raisedE e⟩
      | none => restorePhase (tr ++ [EngEv.moveBack total]) success initialYaw aux1
  else restorePhase tr success initialYaw aux

/-- `Plan`: keep the seed detection if it matches; re-poll once when the
seed is unusable (`fetch_detection(max_wait_s=1.0, require_target=True)`,
one oracle value).  Returns `none` when the oracle is exhausted. -/
def planDetPick (initial : FireDetection) (label : String)
    (fetches : List (Option FireDetection)) :
    Option (Option FireDetection × List (Option FireDetection)) :=
  let planDet0 := if initial.has_fire && labelMatches initial label
    then some initial else none
  let needFetch : Bool := match planDet0 with
    | none => true
    | some d => d.bbox.isNone
  if needFetch then
    match fetches with
    | [] => none
    | fd :: fs => some (fd, fs)
  else some (planDet0, fetches)

/-- After the approach: enter `Hold` only when the approach succeeded with
the target still visible, then always `Retreat` and `RestoreHeading`. -/
def holdRetreatRestore (label : String) (tr : List EngEv) (success : Bool)
    (finalVisible : Bool) (lastSeen : ℚ) (total : ℕ) (initialYaw : Option ℚ)
    (fetches : List (Option FireDetection)) (aux : Aux) : EngRes :=
  if success && finalVisible then
    match aux.times with
    | [] => ⟨tr, success, .noMoreInput⟩
    | lkT :: ts =>
      let aux1 := {aux with times := ts}
      let h := holdLoop label lastSeen lkT fetches aux1
      match h.out with
      | .noMoreInput => ⟨tr, success, .noMoreInput⟩
      | .raisedE e => ⟨tr, success, .raisedE e⟩
      | .done => retreatRestore tr success total initialYaw h.aux
  else retreatRestore tr success total initialYaw aux

/-- The episode tail after the approach loop: a raise or oracle exhaustion
propagates; on normal completion, `Hold` runs only when the target is still
visible on finish (Python's lazy `or` reads the clock only otherwise),
then `Retreat` and `RestoreHeading` always run. -/
def engageAfterApproach (label : String) (tr0 : List EngEv) (iy : Option ℚ)
    (r : ApproachRes) : EngRes :=
  match r.out with
  | .raisedE e => ⟨tr0 ++ r.trace, r.success, .raisedE e⟩
  | .noMoreInput => ⟨tr0 ++ r.trace, r.success, .noMoreInput⟩
  | .done =>
    if r.visible then
      holdRetreatRestore label (tr0 ++ r.trace) r.success true
        r.lastSeen r.total iy r.fetches r.aux
    else
      match r.aux.times with
      | [] => ⟨tr0 ++ r.trace, r.success, .noMoreInput⟩
      | fvT :: ts3 =>
        let aux4 := {r.aux with times := ts3}
        holdRetreatRestore label (tr0 ++ r.trace) r.success
          (decide (fvT - r.lastSeen ≤ ArchConfig.APPROACH_LOST_MS / 1000))
          r.lastSeen r.total iy r.fetches aux4

/-- `engage_target(t, detector, frame_supplier, initial_det)`: the full
episode `Plan → YawCenter → Approach → (Hold | SkipHold) → Retreat →
RestoreHeading`.  `success` mirrors the local `approach_success`. -/
def engageTarget (hasSupplier : Bool) (specs : List (String × TargetSpec))
    (est : FireDetection → Option ℚ) (initial : FireDetection)
    (fetches : List (Option FireDetection)) (aux : Aux) : EngRes :=
  if !hasSupplier then ⟨[], false, .done⟩
  else
    let label := labelOf initial
    match lookupSpec specs label with
    | none => ⟨[], false, .done⟩
    | some spec =>
      let desired := if spec.approach_distance_m = 0 then 3/10
        else spec.approach_distance_m
      match aux.yaws with
      | [] => ⟨[], false, .noMoreInput⟩
      | iy :: ys =>
        let aux1 := {aux with yaws := ys}
        match planDetPick initial label fetches with
        | none => ⟨[], false, .noMoreInput⟩
        | some (planDetQ, fetches1) =>
          match planDetQ with
          | none => ⟨[], false, .done⟩
          | some planDet =>
            if !(planDet.has_fire && planDet.bbox.isSome) then ⟨[], false, .done⟩
            else
              match yawToCenter planDet aux1 with
              | none => ⟨[], false, .noMoreInput⟩
              | some (tr0, some e, _) => ⟨tr0, false, .raisedE e⟩
              | some (tr0, none, aux2) =>
                match aux2.times with
                | [] => ⟨tr0, false, .noMoreInput⟩
                | startT :: ts1 =>
                  match ts1 with
                  | [] => ⟨tr0, false, .noMoreInput⟩
                  | seenT :: ts2 =>
                    let aux3 := {aux2 with times := ts2}
                    let remaining0 := match est planDet with
                      | some d0 => remainingForwardCm (d0 - desired)
                      | none => 0
                    let r := approachLoop label desired est startT seenT
                      remaining0 0 fetches1 aux3
                    engageAfterApproach label tr0 iy r

/-! Trace accounting and raise-freedom lemmas for the engagement episode. -/

def allNone (l : List (Option PyErr)) : Prop := ∀ c ∈ l, c = none

/-- Forward centimetres contributed by one trace event. -/
def fwdCm : EngEv → ℕ
  | .moveForward n => n
  | _ => 0

def fwdSum (tr : List EngEv) : ℕ := (tr.map fwdCm).sum

/-- The magnitudes of the backward moves in a trace, in order. -/
def backList (tr : List EngEv) : List ℕ :=
  tr.filterMap fun ev => match ev with
    | .moveBack n => some n
    | _ => none

lemma fwdSum_append (a b : List EngEv) : fwdSum (a ++ b) = fwdSum a + fwdSum b := by
  simp [fwdSum]

lemma backList_append (a b : List EngEv) :
    backList (a ++ b) = backList a ++ backList b := by
  simp [backList]

lemma yawToCenter_spec {det : FireDetection} {aux : Aux} {tr : List EngEv}
    {errQ : Option PyErr} {aux1 : Aux}
    (h : yawToCenter det aux = some (tr, errQ, aux1)) :
    fwdSum tr = 0 ∧ backList tr = [] ∧
    (allNone aux.cmds → errQ = none ∧ allNone aux1.cmds) ∧
    aux1.times = aux.times ∧ aux1.yaws = aux.yaws := by
  unfold yawToCenter at h
  dsimp only at h
  by_cases hif : (1 : ℤ) ⊔ (BetaConfig.MIN_TURN_DEG : ℤ) ≤
      |pyRound (pixelsToYawDeg det.dx)|
  · rw [if_pos hif] at h
    rcases hc : aux.cmds with _ | ⟨c, cs⟩
    · rw [hc] at h
      exact absurd h (by simp)
    · rw [hc] at h
      rcases c with _ | e
      · simp only [Option.some.injEq, Prod.mk.injEq] at h
        obtain ⟨h1, h2, h3⟩ := h
        subst h1; subst h2; subst h3
        refine ⟨by split <;> rfl, by split <;> rfl, fun hall => ⟨rfl, ?_⟩, rfl, rfl⟩
        exact fun x hx => hall x (List.mem_cons_of_mem _ hx)
      · simp only [Option.some.injEq, Prod.mk.injEq] at h
        obtain ⟨h1, h2, h3⟩ := h
        subst h1; subst h2; subst h3
        exact ⟨rfl, rfl,
          fun hall => absurd (hall (some e) (List.mem_cons_self _ _)) (by simp),
          rfl, rfl⟩
  · rw [if_neg hif] at h
    simp only [Option.some.injEq, Prod.mk.injEq] at h
    obtain ⟨h1, h2, h3⟩ := h
    subst h1; subst h2; subst h3
    exact ⟨rfl, rfl, fun hall => ⟨rfl, hall⟩, rfl, rfl⟩

lemma holdLoop_spec (label : String) :
    ∀ (fetches : List (Option FireDetection)) (lastVisible lastKeepalive : ℚ)
      (aux : Aux),
      (holdLoop label lastVisible lastKeepalive fetches aux).aux.cmds = aux.cmds ∧
      (holdLoop label lastVisible lastKeepalive fetches aux).aux.yaws = aux.yaws ∧
      ∀ e : PyErr,
        (holdLoop label lastVisible lastKeepalive fetches aux).out ≠ .raisedE e := by
  intro fetches
  induction fetches with
  | nil =>
    intro lastVisible lastKeepalive aux
    rw [holdLoop]
    cases aux.times <;> simp
  | cons fd fs ih =>
    intro lastVisible lastKeepalive aux
    rw [holdLoop]
    cases ht : aux.times with
    | nil => simp
    | cons now ts =>
      simp only
      split
      · exact ih _ _ _
      · split
        · simp
        · exact ih _ _ _

lemma restorePhase_spec (tr : List EngEv) (success : Bool) (iy : Option ℚ)
    (aux : Aux) :
    (fwdSum (restorePhase tr success iy aux).trace = fwdSum tr ∧
      backList (restorePhase tr success iy aux).trace = backList tr) ∧
    ((restorePhase tr success iy aux).success = success) ∧
    (allNone aux.cmds → ∀ e, (restorePhase tr success iy aux).out ≠ .raisedE e) := by
  unfold restorePhase
  rcases iy with _ | y0
  · simp
  rcases hy : aux.yaws with _ | ⟨cy, ys⟩
  · simp
  rcases cy with _ | cyv
  · simp
  simp only
  split
  · rcases hc : aux.cmds with _ | ⟨c, cs⟩
    · simp
    rcases c with _ | e0
    · refine ⟨⟨?_, ?_⟩, rfl, fun hall e => by simp⟩
      · simp [fwdSum_append, fwdSum, fwdCm]
      · simp [backList_append, backList]
    · refine ⟨⟨rfl, rfl⟩, rfl, fun hall e => ?_⟩
      exact absurd (hall (some e0) (List.mem_cons_self _ _)) (by simp)
  · simp

lemma retreatRestore_spec (tr : List EngEv) (success : Bool) (total : ℕ)
    (iy : Option ℚ) (aux : Aux) :
    ((retreatRestore tr success total iy aux).out = .done →
      fwdSum (retreatRestore tr success total iy aux).trace = fwdSum tr ∧
      backList (retreatRestore tr success total iy aux).trace =
        backList tr ++ (if 0 < total then [total] else [])) ∧
    ((retreatRestore tr success total iy aux).success = success) ∧
    (allNone aux.cmds → ∀ e, (retreatRestore tr success total iy aux).out ≠ .raisedE e) := by
  unfold retreatRestore
  split
  · rename_i htot
    rcases hc : aux.cmds with _ | ⟨c, cs⟩
    · simp
    rcases c with _ | e0
    · obtain ⟨⟨r1, r2⟩, r3, r4⟩ := restorePhase_spec (tr ++ [EngEv.moveBack total])
        success iy {aux with cmds := cs}
      refine ⟨fun _ => ⟨?_, ?_⟩, r3, fun hall e => ?_⟩
      · rw [r1, fwdSum_append]
        simp [fwdSum, fwdCm]
      · rw [r2, backList_append]
        simp [backList]
      · refine r4 (fun x hx => ?_) e
        exact hall x (List.mem_cons_of_mem _ hx)
    · refine ⟨fun hdone => absurd hdone (by simp), rfl, fun hall e => ?_⟩
      exact absurd (hall (some e0) (List.mem_cons_self _ _)) (by simp)
  · rename_i htot
    obtain ⟨⟨r1, r2⟩, r3, r4⟩ := restorePhase_spec tr success iy aux
    refine ⟨fun _ => ⟨r1, ?_⟩, r3, r4⟩
    rw [r2]
    simp

/-- Invariant of one `Approach` run: the accumulated total equals the input
total plus the forward centimetres in the emitted trace, the trace contains
no backward move, and when every command outcome is a success the run
neither raises nor loses the all-success property of the remaining command
oracle. -/
def approachInv (cmds0 : List (Option PyErr)) (total : ℕ) (r : ApproachRes) : Prop :=
  r.total = total + fwdSum r.trace ∧
  backList r.trace = [] ∧
  (allNone cmds0 → allNone r.aux.cmds ∧ ∀ e, r.out ≠ .raisedE e)

set_option maxHeartbeats 4000000 in
lemma approachLoop_spec (label : String) (desired : ℚ)
    (est : FireDetection → Option ℚ) (startTime : ℚ) :
    ∀ (fetches : List (Option FireDetection)) (lastSeen : ℚ)
      (remainingFwd total : ℕ) (aux : Aux),
      approachInv aux.cmds total
        (approachLoop label desired est startTime lastSeen remainingFwd total
          fetches aux) := by
  intro fetches
  have triv : ∀ (cmds0 : List (Option PyErr)) (total : ℕ) (ls : ℚ)
      (fe : List (Option FireDetection)) (a1 : Aux) (su vi : Bool),
      a1.cmds = cmds0 →
      approachInv cmds0 total ⟨[], total, su, vi, ls, fe, a1, .noMoreInput⟩ ∧
      approachInv cmds0 total ⟨[], total, su, vi, ls, fe, a1, .done⟩ := by
    intro cmds0 total ls fe a1 su vi hc
    subst hc
    exact ⟨⟨by simp [fwdSum], by simp [backList], fun hall => ⟨hall, by simp⟩⟩,
      ⟨by simp [fwdSum], by simp [backList], fun hall => ⟨hall, by simp⟩⟩⟩
  have hfwdpos : ¬ ArchConfig.FORWARD_APPROACH_STEP_CM ≤ 0 := by
    norm_num [ArchConfig.FORWARD_APPROACH_STEP_CM]
  have hfwdpos2 : 0 < ArchConfig.FORWARD_APPROACH_STEP_CM := by
    norm_num [ArchConfig.FORWARD_APPROACH_STEP_CM]
  induction fetches with
  | nil =>
    intro lastSeen remainingFwd total aux
    rw [approachLoop]
    rcases aux.times with _ | ⟨tNow, ts⟩
    · exact (triv _ _ _ _ _ _ _ rfl).1
    · simp only
      split
      · exact (triv _ _ _ _ _ _ _ rfl).1
      · exact (triv _ _ _ _ _ _ _ rfl).2
  | cons fd fs ih =>
    intro lastSeen remainingFwd total aux
    rw [approachLoop]
    rcases aux.times with _ | ⟨tNow, ts⟩
    · exact (triv _ _ _ _ _ _ _ rfl).1
    · simp only
      split
      case isFalse => exact (triv _ _ _ _ _ _ _ rfl).2
      case isTrue =>
        rcases ts with _ | ⟨tN, ts2⟩
        · exact (triv _ _ _ _ _ _ _ rfl).1
        · simp only
          rcases fd with _ | det
          · -- no detection polled: the lost branch
            dsimp only
            split
            · exact ih _ _ _ _
            · split
              · rcases hc : (aux.cmds : List (Option PyErr)) with _ | ⟨c, cs⟩
                · exact (triv _ _ _ _ _ _ _ (by simp)).1
                · rcases c with _ | e0
                  · dsimp only
                    try rw [if_neg hfwdpos]
                    split
                    · refine ⟨by simp [fwdSum, fwdCm], by simp [backList], fun hall => ?_⟩
                      refine ⟨fun x hx => hall x (List.mem_cons_of_mem _ hx), by simp⟩
                    · obtain ⟨i1, i2, i3⟩ := ih lastSeen
                        (remainingFwd - (BetaConfig.MIN_MOVE_CM ⊔
                          remainingFwd ⊓ ArchConfig.FORWARD_APPROACH_STEP_CM))
                        (total + (BetaConfig.MIN_MOVE_CM ⊔
                          remainingFwd ⊓ ArchConfig.FORWARD_APPROACH_STEP_CM))
                        { times := ts2, cmds := cs, yaws := aux.yaws }
                      refine ⟨?_, ?_, fun hall => ?_⟩
                      · simp only [fwdSum, fwdCm, List.map_cons, List.sum_cons]
                        simp only [fwdSum] at i1
                        omega
                      · simpa [backList] using i2
                      · have hall2 : allNone cs :=
                          fun x hx => hall x (List.mem_cons_of_mem _ hx)
                        obtain ⟨j1, j2⟩ := i3 hall2
                        exact ⟨j1, fun e => by simpa using j2 e⟩
                  · refine ⟨by simp [fwdSum], by simp [backList], fun hall => ?_⟩
                    exact absurd (hall (some e0) (List.mem_cons_self _ _)) (by simp)
              · exact (triv _ _ _ _ _ _ _ rfl).2
          · dsimp only
            by_cases hdf : (det.has_fire && labelMatches det label) = true
            case neg =>
              -- a polled detection that does not match: the lost branch
              rw [if_neg hdf]
              dsimp only
              split
              · exact ih _ _ _ _
              · split
                · rcases hc : (aux.cmds : List (Option PyErr)) with _ | ⟨c, cs⟩
                  · exact (triv _ _ _ _ _ _ _ (by simp)).1
                  · rcases c with _ | e0
                    · dsimp only
                      try rw [if_neg hfwdpos]
                      split
                      · refine ⟨by simp [fwdSum, fwdCm], by simp [backList], fun hall => ?_⟩
                        refine ⟨fun x hx => hall x (List.mem_cons_of_mem _ hx), by simp⟩
                      · obtain ⟨i1, i2, i3⟩ := ih lastSeen
                          (remainingFwd - (BetaConfig.MIN_MOVE_CM ⊔
                            remainingFwd ⊓ ArchConfig.FORWARD_APPROACH_STEP_CM))
                          (total + (BetaConfig.MIN_MOVE_CM ⊔
                            remainingFwd ⊓ ArchConfig.FORWARD_APPROACH_STEP_CM))
                          { times := ts2, cmds := cs, yaws := aux.yaws }
                        refine ⟨?_, ?_, fun hall => ?_⟩
                        · simp only [fwdSum, fwdCm, List.map_cons, List.sum_cons]
                          simp only [fwdSum] at i1
                          omega
                        · simpa [backList] using i2
                        · have hall2 : allNone cs :=
                            fun x hx => hall x (List.mem_cons_of_mem _ hx)
                          obtain ⟨j1, j2⟩ := i3 hall2
                          exact ⟨j1, fun e => by simpa using j2 e⟩
                    · refine ⟨by simp [fwdSum], by simp [backList], fun hall => ?_⟩
                      exact absurd (hall (some e0) (List.mem_cons_self _ _)) (by simp)
                · exact (triv _ _ _ _ _ _ _ rfl).2
            case pos =>
              rw [if_pos hdf]
              dsimp only
              rcases hyc : yawToCenter det { times := ts2, cmds := aux.cmds, yaws := aux.yaws }
                with _ | ⟨tr, errQ, aux3⟩
              · exact (triv _ _ _ _ _ _ _ rfl).1
              · obtain ⟨y1, y2, y3, y4, y5⟩ := yawToCenter_spec hyc
                rcases errQ with _ | e0
                · -- yaw step did not raise
                  rcases hest : est det with _ | distanceM
                  · obtain ⟨i1, i2, i3⟩ := ih tN remainingFwd total aux3
                    refine ⟨?_, ?_, fun hall => ?_⟩
                    · simp only [fwdSum, List.map_append, List.sum_append]
                      simp only [fwdSum] at i1 y1
                      omega
                    · simp [backList_append, y2]
                      simpa [backList] using i2
                    · have hall3 : allNone aux3.cmds := (y3 (by simpa using hall)).2
                      obtain ⟨j1, j2⟩ := i3 hall3
                      exact ⟨j1, fun e => by simpa using j2 e⟩
                  · dsimp only
                    try rw [if_pos hfwdpos2]
                    split
                    · refine ⟨?_, by simpa [backList] using y2, fun hall =>
                        ⟨(y3 (by simpa using hall)).2, by simp⟩⟩
                      simp only [fwdSum] at y1 ⊢
                      omega
                    · rcases hc : aux3.cmds with _ | ⟨c, cs⟩
                      · refine ⟨?_, by simpa [backList] using y2,
                          fun hall => ⟨by simp [allNone], by simp⟩⟩
                        simp only [fwdSum] at y1 ⊢
                        omega
                      · rcases c with _ | e0
                        · dsimp only
                          obtain ⟨i1, i2, i3⟩ := ih tN
                            (remainingForwardCm (distanceM - desired))
                            (total + (BetaConfig.MIN_MOVE_CM ⊔
                              (BetaConfig.MIN_MOVE_CM ⊔ BetaConfig.MAX_MOVE_CM ⊓
                                remainingForwardCm (distanceM - desired)) ⊓
                              ArchConfig.FORWARD_APPROACH_STEP_CM))
                            { times := aux3.times, cmds := cs, yaws := aux3.yaws }
                          refine ⟨?_, ?_, fun hall => ?_⟩
                          · simp only [fwdSum, fwdCm, List.map_append, List.sum_append,
                              List.map_cons, List.sum_cons]
                            simp only [fwdSum, fwdCm] at y1 i1
                            omega
                          · simp [backList_append]
                            refine ⟨by simpa [backList] using y2,
                              by simpa [backList] using i2⟩
                          · have hall3 : allNone aux3.cmds := (y3 (by simpa using hall)).2
                            have hall4 : allNone cs :=
                              fun x hx => hall3 x (hc ▸ List.mem_cons_of_mem _ hx)
                            obtain ⟨j1, j2⟩ := i3 hall4
                            exact ⟨j1, fun e => by simpa using j2 e⟩
                        · refine ⟨?_, by simpa [backList] using y2, fun hall => ?_⟩
                          · simp only [fwdSum] at y1 ⊢
                            omega
                          · have hall3 : allNone aux3.cmds := (y3 (by simpa using hall)).2
                            exact absurd (hall3 (some e0) (hc ▸ List.mem_cons_self _ _))
                              (by simp)
                · -- yaw step raised
                  refine ⟨?_, by simpa [backList] using y2, fun hall => ?_⟩
                  · simp only [fwdSum] at y1 ⊢
                    omega
                  · exact absurd (y3 (by simpa using hall)).1 (by simp)

lemma holdRetreatRestore_spec (label : String) (tr : List EngEv)
    (success fv : Bool) (lastSeen : ℚ) (total : ℕ) (iy : Option ℚ)
    (fetches : List (Option FireDetection)) (aux : Aux) :
    ((holdRetreatRestore label tr success fv lastSeen total iy fetches aux).out
        = .done →
      fwdSum (holdRetreatRestore label tr success fv lastSeen total iy fetches
        aux).trace = fwdSum tr ∧
      backList (holdRetreatRestore label tr success fv lastSeen total iy fetches
        aux).trace = backList tr ++ (if 0 < total then [total] else [])) ∧
    (allNone aux.cmds → ∀ e,
      (holdRetreatRestore label tr success fv lastSeen total iy fetches aux).out
        ≠ .raisedE e) := by
  unfold holdRetreatRestore
  split
  · rcases ht : aux.times with _ | ⟨lkT, ts⟩ <;> dsimp only
    · exact ⟨fun h => absurd h (by simp), fun hall e => by simp⟩
    · obtain ⟨hl1, hl2, hl3⟩ := holdLoop_spec label fetches lastSeen lkT
        { aux with times := ts }
      split
      · exact ⟨fun h => absurd h (by simp), fun hall e => by simp⟩
      · refine ⟨fun h => absurd h (by simp), fun hall e => ?_⟩
        rename_i heq
        exact absurd heq (hl3 _)
      · obtain ⟨rr1, rr2, rr3⟩ := retreatRestore_spec tr success total iy
          (holdLoop label lastSeen lkT fetches { aux with times := ts }).aux
        refine ⟨rr1, fun hall e => rr3 ?_ e⟩
        rw [hl1]
        exact hall
  · obtain ⟨rr1, rr2, rr3⟩ := retreatRestore_spec tr success total iy aux
    exact ⟨rr1, rr3⟩

/-- Invariant of a whole engagement episode: an episode that returns
normally carries exactly one compensating backward move, of the total
forward magnitude, when that total is positive (and none otherwise); and
an episode whose command oracle always succeeds never raises. -/
def engageInv (cmds0 : List (Option PyErr)) (r : EngRes) : Prop :=
  (r.out = .done → backList r.trace =
    if 0 < fwdSum r.trace then [fwdSum r.trace] else []) ∧
  (allNone cmds0 → ∀ e, r.out ≠ .raisedE e)

/-- The episode tail from the end of the approach loop onward, for an
arbitrary approach result. -/
lemma engageCont_spec (label2 : String) (cmds0 : List (Option PyErr))
    (tr0 : List EngEv) (iy : Option ℚ) (r : ApproachRes)
    (y1 : fwdSum tr0 = 0) (y2 : backList tr0 = [])
    (htot : r.total = 0 + fwdSum r.trace)
    (hback : backList r.trace = [])
    (hcmds : allNone cmds0 → allNone r.aux.cmds ∧ ∀ e, r.out ≠ .raisedE e) :
    engageInv cmds0 (engageAfterApproach label2 tr0 iy r) := by
  have hback2 : ∀ (fv : Bool) (aux5 : Aux), aux5.cmds = r.aux.cmds →
      engageInv cmds0
        (holdRetreatRestore label2 (tr0 ++ r.trace) r.success fv r.lastSeen
          r.total iy r.fetches aux5) := by
    intro fv aux5 hc5
    obtain ⟨hh1, hh2⟩ := holdRetreatRestore_spec label2 (tr0 ++ r.trace)
      r.success fv r.lastSeen r.total iy r.fetches aux5
    constructor
    · intro hdone
      obtain ⟨g1, g2⟩ := hh1 hdone
      rw [g2, g1, backList_append, fwdSum_append, y1, y2, hback]
      simp only [List.nil_append, List.append_nil, Nat.zero_add]
      rw [show r.total = fwdSum r.trace from by omega]
    · intro hall e
      refine hh2 ?_ e
      rw [hc5]
      exact (hcmds hall).1
  unfold engageAfterApproach
  rcases hout : r.out with _ | e1 | _
  · dsimp only
    split
    · exact hback2 true r.aux rfl
    · rcases ht3 : r.aux.times with _ | ⟨fvT, ts3⟩ <;> dsimp only
      · exact ⟨fun h => absurd h (by simp), fun hall e => by simp⟩
      · exact hback2 _ { r.aux with times := ts3 } rfl
  · dsimp only
    refine ⟨fun h => absurd h (by simp), fun hall e => ?_⟩
    exact absurd hout ((hcmds hall).2 e1)
  · dsimp only
    exact ⟨fun h => absurd h (by simp), fun hall e => by simp⟩

set_option maxHeartbeats 4000000 in
lemma engageTarget_spec (hasSupplier : Bool) (specs : List (String × TargetSpec))
    (est : FireDetection → Option ℚ) (initial : FireDetection)
    (fetches : List (Option FireDetection)) (aux : Aux) :
    engageInv aux.cmds (engageTarget hasSupplier specs est initial fetches aux) := by
  have trivEmpty : ∀ (cmds0 : List (Option PyErr)) (o : EngOut) (su : Bool),
      (∀ e : PyErr, o ≠ .raisedE e) →
      engageInv cmds0 ⟨[], su, o⟩ := by
    intro cmds0 o su hno
    exact ⟨fun _ => by simp [backList, fwdSum], fun _ e => hno e⟩
  unfold engageTarget
  split
  · exact trivEmpty _ EngOut.done _ (by simp)
  · dsimp only
    rcases hls : lookupSpec specs (labelOf initial) with _ | spec <;>
      try dsimp only
    · exact trivEmpty _ EngOut.done _ (by simp)
    · rcases hy : aux.yaws with _ | ⟨iy, ys⟩ <;> try dsimp only
      · exact trivEmpty _ EngOut.noMoreInput _ (by simp)
      · rcases hpd : planDetPick initial (labelOf initial) fetches
          with _ | ⟨planDetQ, fetches1⟩ <;> try dsimp only
        · exact trivEmpty _ EngOut.noMoreInput _ (by simp)
        · rcases planDetQ with _ | planDet <;> try dsimp only
          · exact trivEmpty _ EngOut.done _ (by simp)
          · split
            · exact trivEmpty _ EngOut.done _ (by simp)
            · rcases hyc : yawToCenter planDet { aux with yaws := ys }
                with _ | ⟨tr0, errQ, aux2⟩ <;> try dsimp only
              · exact trivEmpty _ EngOut.noMoreInput _ (by simp)
              · obtain ⟨y1, y2, y3, y4, y5⟩ := yawToCenter_spec hyc
                rcases errQ with _ | e0 <;> try dsimp only
                · rcases ht1 : aux2.times with _ | ⟨startT, ts1⟩ <;>
                    try dsimp only
                  · exact ⟨fun h => absurd h (by simp), fun hall e => by simp⟩
                  · rcases ts1 with _ | ⟨seenT, ts2⟩ <;> try dsimp only
                    · exact ⟨fun h => absurd h (by simp), fun hall e => by simp⟩
                    · refine engageCont_spec (labelOf initial) aux.cmds tr0 iy _
                        y1 y2 ?_ ?_ ?_
                      · exact (approachLoop_spec _ _ est startT fetches1 seenT
                          _ 0 _).1
                      · exact (approachLoop_spec _ _ est startT fetches1 seenT
                          _ 0 _).2.1
                      · intro hall
                        refine (approachLoop_spec _ _ est startT fetches1 seenT
                          _ 0 { aux2 with times := ts2 }).2.2 ?_
                        simpa using (y3 (by simpa using hall)).2
                · refine ⟨fun h => absurd h (by simp), fun hall e => ?_⟩
                  have hcon := (y3 (by simpa using hall)).1
                  exact absurd hcon (by simp)

section EngagementScenarios

attribute [local semireducible] Rat.add Rat.mul Rat.sub Rat.inv

/-- Counterexample to the literal C4 claim: with a seed detection far off
centre (`dx = 960`) and a centering-rotation command whose
`try_cmd` raises after exhausting its retries, `engage_target` propagates
the exception to its caller: the `rotate_cw`/`rotate_ccw` calls inside
`yaw_to_center` (and likewise the `move_forward`/`move_back` calls of the
approach, blind-step and retreat phases) are not wrapped in `try`/`except`
inside `engage_target`, so a raised actuator command crashes out of the
episode instead of merely ending the current state early. -/
theorem engage_target_raises_cex :
    (engageTarget true ArchConfig.TARGET_SPECS (fun _ => none)
        ⟨true, 960, 0, 0, 1, some (0, 0, 100, 0), 0, some "fire"⟩ []
        ⟨[], [some ⟨false, true, false⟩], [some 0]⟩).out =
      EngOut.raisedE ⟨false, true, false⟩ := by
  decide

/-- C4 (amended): an engagement episode in which every wrapped actuator
command reports success never raises to its caller, whatever the detector,
clock and yaw-telemetry oracles do.  (The unamended claim is false: see the
counterexample — an actuator command that itself raises out of `try_cmd`
propagates through `engage_target`.) -/
theorem engage_target_no_raise (hasSupplier : Bool)
    (specs : List (String × TargetSpec)) (est : FireDetection → Option ℚ)
    (initial : FireDetection) (fetches : List (Option FireDetection))
    (aux : Aux) (hall : allNone aux.cmds) (e : PyErr) :
    (engageTarget hasSupplier specs est initial fetches aux).out ≠
      EngOut.raisedE e :=
  (engageTarget_spec hasSupplier specs est initial fetches aux).2 hall e

/-- `engage_target_no_raise` at a concrete episode whose command oracle is
all-success. -/
theorem engage_target_no_raise_witness :
    allNone ([none] : List (Option PyErr)) ∧
    (engageTarget true ArchConfig.TARGET_SPECS (fun _ => none)
        ⟨true, 0, 0, 0, 1, some (0, 0, 100, 0), 0, some "fire"⟩ []
        ⟨[], [none], [some 0]⟩).out ≠ EngOut.raisedE ⟨false, true, false⟩ :=
  ⟨fun c hc => by simpa using hc,
    engage_target_no_raise true ArchConfig.TARGET_SPECS (fun _ => none)
      ⟨true, 0, 0, 0, 1, some (0, 0, 100, 0), 0, some "fire"⟩ []
      ⟨[], [none], [some 0]⟩ (fun c hc => by simpa using hc)
      ⟨false, true, false⟩⟩

/-- C5: an engagement episode that returns normally leaves no outstanding
forward displacement: its trace carries exactly one compensating backward
move, of magnitude equal to the accumulated forward total, when that total
is positive, and no backward move otherwise; and in the scenario where the
seed detection is already at the standoff distance the approach exits at
once with zero forward travel, the hold runs until the target is lost, the
retreat is a no-op and the episode succeeds with an empty movement trace. -/
theorem engage_retreat_balance (hasSupplier : Bool)
    (specs : List (String × TargetSpec)) (est : FireDetection → Option ℚ)
    (initial : FireDetection) (fetches : List (Option FireDetection))
    (aux : Aux)
    (hdone : (engageTarget hasSupplier specs est initial fetches aux).out =
      EngOut.done) :
    (backList (engageTarget hasSupplier specs est initial fetches aux).trace =
      if 0 < fwdSum (engageTarget hasSupplier specs est initial fetches aux).trace
      then [fwdSum (engageTarget hasSupplier specs est initial fetches aux).trace]
      else []) ∧
    engageTarget true ArchConfig.TARGET_SPECS (fun _ => some (7/10))
        ⟨true, 0, 0, 0, 1, some (0, 0, 100, 0), 0, some "fire"⟩
        [some ⟨true, 0, 0, 0, 1, some (0, 0, 100, 0), 0, some "fire"⟩, none]
        ⟨[0, 0, 0, 0, 0, 3], [], [some 0, none]⟩ =
      ⟨[], true, EngOut.done⟩ :=
  ⟨(engageTarget_spec hasSupplier specs est initial fetches aux).1 hdone,
    by decide⟩

/-- `engage_retreat_balance` at the standoff-tolerance scenario episode. -/
theorem engage_retreat_balance_witness :
    (engageTarget true ArchConfig.TARGET_SPECS (fun _ => some (7/10))
        ⟨true, 0, 0, 0, 1, some (0, 0, 100, 0), 0, some "fire"⟩
        [some ⟨true, 0, 0, 0, 1, some (0, 0, 100, 0), 0, some "fire"⟩, none]
        ⟨[0, 0, 0, 0, 0, 3], [], [some 0, none]⟩).out = EngOut.done ∧
    backList (engageTarget true ArchConfig.TARGET_SPECS (fun _ => some (7/10))
        ⟨true, 0, 0, 0, 1, some (0, 0, 100, 0), 0, some "fire"⟩
        [some ⟨true, 0, 0, 0, 1, some (0, 0, 100, 0), 0, some "fire"⟩, none]
        ⟨[0, 0, 0, 0, 0, 3], [], [some 0, none]⟩).trace =
      if 0 < fwdSum (engageTarget true ArchConfig.TARGET_SPECS
          (fun _ => some (7/10))
          ⟨true, 0, 0, 0, 1, some (0, 0, 100, 0), 0, some "fire"⟩
          [some ⟨true, 0, 0, 0, 1, some (0, 0, 100, 0), 0, some "fire"⟩, none]
          ⟨[0, 0, 0, 0, 0, 3], [], [some 0, none]⟩).trace
      then [fwdSum (engageTarget true ArchConfig.TARGET_SPECS
          (fun _ => some (7/10))
          ⟨true, 0, 0, 0, 1, some (0, 0, 100, 0), 0, some "fire"⟩
          [some ⟨true, 0, 0, 0, 1, some (0, 0, 100, 0), 0, some "fire"⟩, none]
          ⟨[0, 0, 0, 0, 0, 3], [], [some 0, none]⟩).trace]
      else [] :=
  ⟨by decide,
    (engage_retreat_balance true ArchConfig.TARGET_SPECS (fun _ => some (7/10))
      ⟨true, 0, 0, 0, 1, some (0, 0, 100, 0), 0, some "fire"⟩
      [some ⟨true, 0, 0, 0, 1, some (0, 0, 100, 0), 0, some "fire"⟩, none]
      ⟨[0, 0, 0, 0, 0, 3], [], [some 0, none]⟩ (by decide)).1⟩

end EngagementScenarios

end Sofia

